import Mathlib

/-!
Verification development for the `maap_client` repository.

The time-arithmetic parts of the client (day-window iteration, range
normalization, binary boundary search, incremental fetch-window computation)
are embedded with timestamps as whole seconds since the Unix epoch, UTC
(`Int`); note that `/` and `%` on `Int` in Lean are floor division and
nonnegative remainder, exactly Python's `//` and `%`, so `t / 86400` is
`datetime.date()` as a day number and `t % 86400` is the UTC time of day.

The filename-metadata and registry parts are embedded with timestamps in
microseconds since the epoch (product filenames can carry millisecond
sensing times) and files as lists of text lines.
-/

namespace Maap

/-- One candidate window of `MaapSearcher._iter_day_ranges` (search.py,
lines 94-130) for loop day `c`: the window starts at `start` itself on the
first day (`is_first` holds exactly when `c = start.date()`) and at
00:00:00 UTC otherwise, ends at `end` on the last day and at 23:59:59 UTC
otherwise, and is yielded only when its start strictly precedes its end. -/
def dayWindow (s e c : Int) : Option (Int × Int) :=
  let a := if c = s / 86400 then s else c * 86400
  let b := if c = e / 86400 then e else c * 86400 + 86399
  if a < b then some (a, b) else none

/-- `MaapSearcher._iter_day_ranges(start, end)` (search.py, lines 94-130):
the `while current <= end_date` loop iterates `current` over the days
`start.date() .. end.date()` and yields the valid windows. -/
def iter_day_ranges (s e : Int) : List (Int × Int) :=
  (List.range (e / 86400 + 1 - s / 86400).toNat).filterMap
    (fun (i : Nat) => dayWindow s e (s / 86400 + (i : Int)))

theorem mem_iter_day_ranges {s e : Int} {w : Int × Int} :
    w ∈ iter_day_ranges s e ↔
      ∃ c : Int, s / 86400 ≤ c ∧ c ≤ e / 86400 ∧ dayWindow s e c = some w := by
  unfold iter_day_ranges
  simp only [List.mem_filterMap, List.mem_range]
  constructor
  · rintro ⟨i, hi, hw⟩
    exact ⟨s / 86400 + (i : Int), by omega, by omega, hw⟩
  · rintro ⟨c, h1, h2, hw⟩
    refine ⟨(c - s / 86400).toNat, by omega, ?_⟩
    have hc : s / 86400 + ((c - s / 86400).toNat : Int) = c := by omega
    rw [hc]; exact hw

theorem dayWindow_def (s e c : Int) :
    dayWindow s e c =
      if (if c = s / 86400 then s else c * 86400) <
          (if c = e / 86400 then e else c * 86400 + 86399)
      then some (if c = s / 86400 then s else c * 86400,
                 if c = e / 86400 then e else c * 86400 + 86399)
      else none := rfl

theorem dayWindow_eq_some {s e c : Int} {w : Int × Int} (h : dayWindow s e c = some w) :
    w.1 = (if c = s / 86400 then s else c * 86400) ∧
    w.2 = (if c = e / 86400 then e else c * 86400 + 86399) ∧ w.1 < w.2 := by
  rw [dayWindow_def] at h
  by_cases hab : (if c = s / 86400 then s else c * 86400) <
      (if c = e / 86400 then e else c * 86400 + 86399)
  · rw [if_pos hab] at h
    cases h
    exact ⟨rfl, rfl, hab⟩
  · rw [if_neg hab] at h
    cases h

/-- Arithmetic shape of every yielded window. -/
theorem shape_of_mem {s e : Int} {w : Int × Int} (hw : w ∈ iter_day_ranges s e) :
    ∃ c : Int, s / 86400 ≤ c ∧ c ≤ e / 86400 ∧
      w.1 = (if c = s / 86400 then s else c * 86400) ∧
      w.2 = (if c = e / 86400 then e else c * 86400 + 86399) ∧ w.1 < w.2 := by
  obtain ⟨c, h1, h2, hww⟩ := mem_iter_day_ranges.mp hw
  obtain ⟨ha, hb, hv⟩ := dayWindow_eq_some hww
  exact ⟨c, h1, h2, ha, hb, hv⟩

/-- C1 (amended): for `start < end` (whole-second UTC instants), the
windows yielded by `_iter_day_ranges` lie inside `[start, end]`, each has
start strictly before end, each starts at `start` or at a UTC midnight and
ends at `end` or at a 23:59:59, consecutive windows are disjoint and
increasing, and together they cover every whole second of `[start, end]`
except `end` itself when `end` falls exactly at midnight and `start`
itself when `start`'s time of day is 23:59:59; in particular the first
window begins exactly at `start` and the last ends exactly at `end`
whenever those two boundary situations do not occur. -/
theorem iter_day_ranges_amended (s e : Int) (h : s < e) :
    (∀ w ∈ iter_day_ranges s e, s ≤ w.1 ∧ w.1 < w.2 ∧ w.2 ≤ e) ∧
    (∀ w ∈ iter_day_ranges s e,
        (w.1 = s ∨ w.1 % 86400 = 0) ∧ (w.2 = e ∨ w.2 % 86400 = 86399)) ∧
    (iter_day_ranges s e).Pairwise (fun w w' => w.2 < w'.1) ∧
    (∀ t : Int, (∃ w ∈ iter_day_ranges s e, w.1 ≤ t ∧ t ≤ w.2) ↔
        (s ≤ t ∧ t ≤ e ∧ ¬(t = s ∧ s % 86400 = 86399) ∧ ¬(t = e ∧ e % 86400 = 0))) ∧
    (s % 86400 ≠ 86399 → ∃ w ∈ iter_day_ranges s e, w.1 = s) ∧
    (e % 86400 ≠ 0 → ∃ w ∈ iter_day_ranges s e, w.2 = e) := by
  have hwithin : ∀ w ∈ iter_day_ranges s e, s ≤ w.1 ∧ w.1 < w.2 ∧ w.2 ≤ e := by
    intro w hw
    obtain ⟨c, h1, h2, ha, hb, hv⟩ := shape_of_mem hw
    constructor
    · split_ifs at ha <;> omega
    refine ⟨hv, ?_⟩
    split_ifs at hb <;> omega
  have hcover : ∀ t : Int, (∃ w ∈ iter_day_ranges s e, w.1 ≤ t ∧ t ≤ w.2) ↔
      (s ≤ t ∧ t ≤ e ∧ ¬(t = s ∧ s % 86400 = 86399) ∧ ¬(t = e ∧ e % 86400 = 0)) := by
    intro t
    constructor
    · rintro ⟨w, hw, hta, htb⟩
      obtain ⟨c, h1, h2, ha, hb, hv⟩ := shape_of_mem hw
      split_ifs at ha hb <;> omega
    · rintro ⟨ht1, ht2, ht3, ht4⟩
      have hv : (if t / 86400 = s / 86400 then s else t / 86400 * 86400) <
          (if t / 86400 = e / 86400 then e else t / 86400 * 86400 + 86399) := by
        split_ifs <;> omega
      refine ⟨((if t / 86400 = s / 86400 then s else t / 86400 * 86400),
               (if t / 86400 = e / 86400 then e else t / 86400 * 86400 + 86399)), ?_, ?_, ?_⟩
      · rw [mem_iter_day_ranges]
        refine ⟨t / 86400, by omega, by omega, ?_⟩
        rw [dayWindow_def, if_pos hv]
      · split_ifs <;> omega
      · split_ifs <;> omega
  refine ⟨hwithin, ?_, ?_, hcover, ?_, ?_⟩
  · intro w hw
    obtain ⟨c, h1, h2, ha, hb, hv⟩ := shape_of_mem hw
    constructor
    · split_ifs at ha
      · exact Or.inl ha
      · exact Or.inr (by omega)
    · split_ifs at hb
      · exact Or.inl hb
      · exact Or.inr (by omega)
  · unfold iter_day_ranges
    refine List.Pairwise.filterMap _ ?_ (List.pairwise_lt_range _)
    intro i j hij w hw w' hw'
    rw [Option.mem_def] at hw hw'
    obtain ⟨ha, hb, hv⟩ := dayWindow_eq_some hw
    obtain ⟨ha', hb', hv'⟩ := dayWindow_eq_some hw'
    split_ifs at ha hb ha' hb' <;> omega
  · intro hs
    obtain ⟨w, hw, h1, h2⟩ := (hcover s).mpr (by omega)
    have := hwithin w hw
    exact ⟨w, hw, by omega⟩
  · intro he
    obtain ⟨w, hw, h1, h2⟩ := (hcover e).mpr (by omega)
    have := hwithin w hw
    exact ⟨w, hw, by omega⟩

/-- C1 counterexample: for `start` = 12:00:00 and `end` = midnight of the
next day (`start < end`), the only yielded window is
`[12:00:00, 23:59:59]`: the last window does not end at the exact instant
`end`, and the instant `end` is covered by no window, refuting the claim
that the windows concatenate to cover `[start, end]` exactly with the last
window ending at `end`. -/
theorem iter_day_ranges_cex :
    (43200 : Int) < 86400 ∧
    iter_day_ranges 43200 86400 = [(43200, 86399)] ∧
    ∀ w ∈ iter_day_ranges 43200 86400, ¬(w.1 ≤ 86400 ∧ (86400 : Int) ≤ w.2) := by
  decide

/-- Witness instantiating `iter_day_ranges_amended` at `start` = day 0
12:00:00, `end` = day 1 03:46:40. -/
theorem iter_day_ranges_amended_witness :
    (43200 : Int) < 100000 ∧
    ∀ w ∈ iter_day_ranges 43200 100000, 43200 ≤ w.1 ∧ w.1 < w.2 ∧ w.2 ≤ 100000 :=
  ⟨by decide, (iter_day_ranges_amended 43200 100000 (by decide)).1⟩

/-- `normalize_time_range(start, end, mission_start, mission_end)`
(utils.py, lines 70-103), with `now` passed explicitly (the code reads the
wall clock; a `datetime` is always truthy, so `start if start else
mission_start` is exactly `Option.getD`):
`end_cap = min(now, mission_end)`;
`t0 = max(start or mission_start, mission_start)`;
`t1 = min(end or end_cap, end_cap)`. -/
def normalize_time_range (start end_ : Option Int) (mission_start mission_end now : Int) :
    Int × Int :=
  let end_cap := min now mission_end
  let t0 := max (start.getD mission_start) mission_start
  let t1 := min (end_.getD end_cap) end_cap
  (t0, t1)

/-- C2 counterexample: with mission start 0, mission end 100, now 50
(so `min(now, mission_end) = 50`), a caller start of 60 and an absent
end give `(t0, t1) = (60, 50)`: `t0 ≤ t1` fails, so the chain
`mission_start ≤ t0 ≤ t1 ≤ min(now, mission_end)` claimed for every
input does not hold — a start above `min(now, mission_end)` is not
clamped down. -/
theorem normalize_time_range_cex :
    normalize_time_range (some 60) none 0 100 50 = (60, 50) ∧
    ¬((60 : Int) ≤ 50) := by decide

/-- C2 (amended): `normalize_time_range` always returns
`mission_start ≤ t0` and `t1 ≤ min(now, mission_end)`, an absent start
defaults to mission start and an absent end defaults to
`min(now, mission_end)`; but only the lower bound of the start and the
upper bound of the end are clamped, so the full chain
`mission_start ≤ t0 ≤ t1 ≤ min(now, mission_end)` holds only under the
side conditions below (in particular it holds whenever the provided
bounds, after defaulting, are ordered and inside
`[mission_start, min(now, mission_end)]`). -/
theorem normalize_time_range_amended (start end_ : Option Int)
    (mission_start mission_end now : Int)
    (h1 : mission_start ≤ min now mission_end)
    (h2 : start.getD mission_start ≤ min now mission_end)
    (h3 : mission_start ≤ end_.getD (min now mission_end))
    (h4 : start.getD mission_start ≤ end_.getD (min now mission_end)) :
    mission_start ≤ (normalize_time_range start end_ mission_start mission_end now).1 ∧
    (normalize_time_range start end_ mission_start mission_end now).1 ≤
      (normalize_time_range start end_ mission_start mission_end now).2 ∧
    (normalize_time_range start end_ mission_start mission_end now).2 ≤
      min now mission_end ∧
    (start = none →
      (normalize_time_range start end_ mission_start mission_end now).1 = mission_start) ∧
    (end_ = none →
      (normalize_time_range start end_ mission_start mission_end now).2 =
        min now mission_end) := by
  unfold normalize_time_range
  refine ⟨by simp, ?_, by simp, ?_, ?_⟩
  · exact max_le (le_min h4 h2) (le_min h3 h1)
  · rintro rfl; simp
  · rintro rfl; simp

/-- Witness instantiating `normalize_time_range_amended` with mission
bounds `[0, 100]`, now 50, caller range `[10, 20]`. -/
theorem normalize_time_range_amended_witness :
    (0 : Int) ≤ (normalize_time_range (some 10) (some 20) 0 100 50).1 ∧
    (normalize_time_range (some 10) (some 20) 0 100 50).1 ≤
      (normalize_time_range (some 10) (some 20) 0 100 50).2 ∧
    (normalize_time_range (some 10) (some 20) 0 100 50).2 ≤ min 50 100 := by
  have h := normalize_time_range_amended (some 10) (some 20) 0 100 50
    (by decide) (by decide) (by decide) (by decide)
  exact ⟨h.1, h.2.1, h.2.2.1⟩

/-- First-day binary search inside
`MaapSearcher.search_product_info_range` (search.py, lines 384-401):
`while lo.date() <= hi.date(): mid_day = (lo + (hi - lo) / 2).date();`
on a successful probe of `[t0, mid_day 23:59:59]` record `mid_day` and set
`hi` to the midnight of the previous day, else set `lo` to the midnight of
the next day.  The loop is written with explicit fuel (the day span of
`lo..hi` shrinks every iteration, and callers pass fuel larger than the
initial span); the result carries an instrumentation counter of how many
existence probes (`search_has_any_product` calls) were made.  `(hi-lo)/2`
is Python timedelta halving, exact to the half second; flooring it (Lean
`Int` `/` is floor division) never changes the `.date()` of `lo + delta`,
since a whole-second instant and the instant half a second later always
share a UTC date. -/
def find_first_day (probe : Int → Int → Bool) (t0 : Int) :
    Nat → Int → Int → Option Int → Nat → Option Int × Nat
  | 0, _, _, acc, cnt => (acc, cnt)
  | fuel+1, lo, hi, acc, cnt =>
    if lo / 86400 ≤ hi / 86400 then
      let mid := (lo + (hi - lo) / 2) / 86400
      if probe t0 (mid * 86400 + 86399) then
        find_first_day probe t0 fuel lo (mid * 86400 - 86400) (some mid) (cnt + 1)
      else
        find_first_day probe t0 fuel (mid * 86400 + 86400) hi acc (cnt + 1)
    else (acc, cnt)

/-- Last-day binary search inside `search_product_info_range` (search.py,
lines 403-418), mirror image of `find_first_day`: probes
`[mid_day 00:00:00, t1]` and narrows toward the latest passing day. -/
def find_last_day (probe : Int → Int → Bool) (t1 : Int) :
    Nat → Int → Int → Option Int → Nat → Option Int × Nat
  | 0, _, _, acc, cnt => (acc, cnt)
  | fuel+1, lo, hi, acc, cnt =>
    if lo / 86400 ≤ hi / 86400 then
      let mid := (lo + (hi - lo) / 2) / 86400
      if probe (mid * 86400) t1 then
        find_last_day probe t1 fuel (mid * 86400 + 86400) hi (some mid) (cnt + 1)
      else
        find_last_day probe t1 fuel lo (mid * 86400 - 86400) acc (cnt + 1)
    else (acc, cnt)

/-- `MaapSearcher.search_product_info_range` (search.py, lines 355-444).
The STAC backend is abstracted into two oracles: `probe a b` is one
`search_has_any_product(collection, product_type, baseline, a, b)`
existence check, and `searchUrls a b` is
`search_urls(collection, product_type, baseline, a, b)`, which per the
source returns URLs sorted ascending by sensing time; granules are
identified by their sensing instants (building `GranuleInfo` from the URL
is metadata repackaging).  Control flow: resolve the range, quick-exit if
no data at all, run the two day-level binary searches, then query the full
first and last boundary days and take the first URL of the first day and
the last URL of the last day. -/
def search_product_info_range (probe : Int → Int → Bool)
    (searchUrls : Int → Int → List Int) (start end_ : Option Int)
    (mission_start mission_end now : Int) : Option (Int × Int) :=
  let r := normalize_time_range start end_ mission_start mission_end now
  let t0 := r.1
  let t1 := r.2
  if probe t0 t1 = false then none
  else
    let fuel := (t1 / 86400 - t0 / 86400).toNat + 2
    let fd := (find_first_day probe t0 fuel t0 t1 none 0).1
    let ld := (find_last_day probe t1 fuel t0 t1 none 0).1
    match fd, ld with
    | some f, some l =>
      let firstUrls := searchUrls (f * 86400) (f * 86400 + 86399)
      let lastUrls := searchUrls (l * 86400) (l * 86400 + 86399)
      match firstUrls.head?, lastUrls.getLast? with
      | some a, some b => some (a, b)
      | _, _ => none
    | _, _ => none

/-- C3 scenario backend: a 30-day normalized range starting at day
`scnBase`, with exactly one granule (at 12:00:00 UTC) on each of days
10 through 15 of the range (days `scnBase+9 .. scnBase+14`). -/
def scnBase : Int := 20000

def scnTimes : List Int :=
  (List.range 6).map (fun (i : Nat) => (scnBase + 9 + (i : Int)) * 86400 + 43200)

/-- Scenario existence oracle: data is reported for a queried window
exactly when some granule's sensing time lies in it. -/
def scnProbe (a b : Int) : Bool := scnTimes.any (fun t => decide (a ≤ t) && decide (t ≤ b))

/-- Scenario URL search: the granules with sensing time in the window, in
ascending sensing-time order. -/
def scnUrls (a b : Int) : List Int := scnTimes.filter (fun t => decide (a ≤ t) && decide (t ≤ b))

def scnT0 : Int := scnBase * 86400

def scnT1 : Int := (scnBase + 29) * 86400 + 86399

/-- C3: against a backend with data exactly on days 10-15 of the 30-day
normalized range, `search_product_info_range` returns the first granule of
day 10 and the last granule of day 15, and each of the two day-level
binary searches issues only 5 existence probes (within the claimed
O(log 30), versus 30 for a linear scan); 31 is the fuel value the function
itself computes for this range. -/
theorem search_product_info_range_scenario :
    search_product_info_range scnProbe scnUrls (some scnT0) (some scnT1) scnT0 scnT1 scnT1 =
      some ((scnBase + 9) * 86400 + 43200, (scnBase + 14) * 86400 + 43200) ∧
    ((scnBase + 9) * 86400 + 43200) / 86400 = scnBase + 9 ∧
    ((scnBase + 14) * 86400 + 43200) / 86400 = scnBase + 14 ∧
    (find_first_day scnProbe scnT0 31 scnT0 scnT1 none 0).2 = 5 ∧
    (find_last_day scnProbe scnT1 31 scnT0 scnT1 none 0).2 = 5 ∧
    (scnT1 / 86400 - scnT0 / 86400).toNat + 2 = 31 := by decide

/-- The fetch-window computation of `CatalogCollectionManager.build`
(catalog_build.py, lines 276-291) for one baseline: given the existing
recorded range (`existing.time_range()`, `none` when the baseline has no
recorded range) and the normalized requested range, the list of
`(start, end, updates_start)` windows to fetch, in source order:
`some true` marks the window preceding the existing start, `some false`
the window following the existing end, `none` a full from-scratch fetch.
The source's `if effective_start and ...` truthiness guards are vacuous
(Python datetimes are always truthy and `normalize_time_range` always
returns datetimes); `timedelta(seconds=1)` is 1.  An empty result is the
`if not to_fetch: continue` skip: the baseline is fetched not at all and
its catalog entry is left unchanged. -/
def build_fetch_windows (exRange : Option (Int × Int)) (effStart effEnd : Int) :
    List (Int × Int × Option Bool) :=
  match exRange with
  | some (t0, t1) =>
    (if effStart < t0 then [(effStart, t0 - 1, some true)] else []) ++
    (if effEnd > t1 then [(t1 + 1, effEnd, some false)] else [])
  | none => [(effStart, effEnd, none)]

/-- C4: for a baseline with existing recorded range `[t0, t1]` and
normalized request `[effStart, effEnd]`, `build` computes at most two
fetch windows: `[effStart, t0 - 1s]` exactly when `effStart < t0` and
`[t1 + 1s, effEnd]` exactly when `effEnd > t1`; nothing else is ever
fetched, the baseline is skipped (no window) when neither condition
holds, every emitted window is nonempty, the two windows never overlap
each other, and no window intersects the already-covered `[t0, t1]`. -/
theorem build_fetch_windows_spec (t0 t1 effStart effEnd : Int) (h : t0 ≤ t1) :
    ((effStart, t0 - 1, some true) ∈ build_fetch_windows (some (t0, t1)) effStart effEnd ↔
      effStart < t0) ∧
    ((t1 + 1, effEnd, some false) ∈ build_fetch_windows (some (t0, t1)) effStart effEnd ↔
      t1 < effEnd) ∧
    (∀ w ∈ build_fetch_windows (some (t0, t1)) effStart effEnd,
      w = (effStart, t0 - 1, some true) ∨ w = (t1 + 1, effEnd, some false)) ∧
    (build_fetch_windows (some (t0, t1)) effStart effEnd).length ≤ 2 ∧
    (¬effStart < t0 → ¬t1 < effEnd →
      build_fetch_windows (some (t0, t1)) effStart effEnd = []) ∧
    (∀ w ∈ build_fetch_windows (some (t0, t1)) effStart effEnd, w.1 ≤ w.2.1) ∧
    (∀ w ∈ build_fetch_windows (some (t0, t1)) effStart effEnd, w.2.1 < t0 ∨ t1 < w.1) ∧
    (∀ w ∈ build_fetch_windows (some (t0, t1)) effStart effEnd,
      ∀ w' ∈ build_fetch_windows (some (t0, t1)) effStart effEnd,
        w ≠ w' → w.2.1 < w'.1 ∨ w'.2.1 < w.1) := by
  have hred : build_fetch_windows (some (t0, t1)) effStart effEnd =
      (if effStart < t0 then [(effStart, t0 - 1, some true)] else []) ++
      (if effEnd > t1 then [(t1 + 1, effEnd, some false)] else []) := rfl
  split_ifs at hred with h1 h2 h2 <;> rw [hred]
  · refine ⟨iff_of_true (by simp) h1, iff_of_true (by simp) h2, ?_, by simp,
      fun hc _ => absurd h1 hc, ?_, ?_, ?_⟩
    · intro w hw; simpa using hw
    · intro w hw
      have hw' : w = (effStart, t0 - 1, some true) ∨ w = (t1 + 1, effEnd, some false) := by
        simpa using hw
      rcases hw' with rfl | rfl <;> dsimp only <;> omega
    · intro w hw
      have hw' : w = (effStart, t0 - 1, some true) ∨ w = (t1 + 1, effEnd, some false) := by
        simpa using hw
      rcases hw' with rfl | rfl <;> dsimp only <;> omega
    · intro w hw w' hw' hne
      have ha : w = (effStart, t0 - 1, some true) ∨ w = (t1 + 1, effEnd, some false) := by
        simpa using hw
      have hb : w' = (effStart, t0 - 1, some true) ∨ w' = (t1 + 1, effEnd, some false) := by
        simpa using hw'
      rcases ha with rfl | rfl <;> rcases hb with rfl | rfl
      · exact absurd rfl hne
      · dsimp only; omega
      · dsimp only; omega
      · exact absurd rfl hne
  · refine ⟨iff_of_true (by simp) h1, iff_of_false (by simp) h2, ?_, by simp,
      fun hc _ => absurd h1 hc, ?_, ?_, ?_⟩
    · intro w hw
      exact Or.inl (by simpa using hw)
    · intro w hw
      have hw' : w = (effStart, t0 - 1, some true) := by simpa using hw
      subst hw'; dsimp only; omega
    · intro w hw
      have hw' : w = (effStart, t0 - 1, some true) := by simpa using hw
      subst hw'; dsimp only; omega
    · intro w hw w' hw' hne
      have ha : w = (effStart, t0 - 1, some true) := by simpa using hw
      have hb : w' = (effStart, t0 - 1, some true) := by simpa using hw'
      subst ha; subst hb
      exact absurd rfl hne
  · refine ⟨iff_of_false (by simp) h1, iff_of_true (by simp) h2, ?_, by simp,
      fun _ hc => absurd h2 hc, ?_, ?_, ?_⟩
    · intro w hw
      exact Or.inr (by simpa using hw)
    · intro w hw
      have hw' : w = (t1 + 1, effEnd, some false) := by simpa using hw
      subst hw'; dsimp only; omega
    · intro w hw
      have hw' : w = (t1 + 1, effEnd, some false) := by simpa using hw
      subst hw'; dsimp only; omega
    · intro w hw w' hw' hne
      have ha : w = (t1 + 1, effEnd, some false) := by simpa using hw
      have hb : w' = (t1 + 1, effEnd, some false) := by simpa using hw'
      subst ha; subst hb
      exact absurd rfl hne
  · refine ⟨iff_of_false (by simp) h1, iff_of_false (by simp) h2, ?_, by simp,
      fun _ _ => by simp, ?_, ?_, ?_⟩
    · intro w hw; exact absurd hw (by simp)
    · intro w hw; exact absurd hw (by simp)
    · intro w hw; exact absurd hw (by simp)
    · intro w hw; exact absurd hw (by simp)

/-- Witness instantiating `build_fetch_windows_spec` at the claim's
concrete scenario (2025 dates, epoch seconds): existing coverage
`[Jun 1 00:00:00, Jun 10 00:00:00]` = `[1748736000, 1749513600]`, request
`[May 25, Jun 20]` = `[1748131200, 1750377600]`; the computed windows are
exactly `[May 25, May 31 23:59:59]` and `[Jun 10 00:00:01, Jun 20]`, and
no window intersects `[Jun 1, Jun 10]`. -/
theorem build_fetch_windows_spec_witness :
    build_fetch_windows (some (1748736000, 1749513600)) 1748131200 1750377600 =
      [(1748131200, 1748735999, some true), (1749513601, 1750377600, some false)] ∧
    (1748736000 : Int) ≤ 1749513600 ∧
    ((1748131200 : Int), (1748735999 : Int), some true) ∈
      build_fetch_windows (some (1748736000, 1749513600)) 1748131200 1750377600 ∧
    ((1749513601 : Int), (1750377600 : Int), some false) ∈
      build_fetch_windows (some (1748736000, 1749513600)) 1748131200 1750377600 ∧
    ∀ w ∈ build_fetch_windows (some (1748736000, 1749513600)) 1748131200 1750377600,
      w.2.1 < 1748736000 ∨ (1749513600 : Int) < w.1 := by
  have h := build_fetch_windows_spec 1748736000 1749513600 1748131200 1750377600 (by decide)
  exact ⟨by decide, by decide, h.1.mpr (by decide), h.2.1.mpr (by decide),
    h.2.2.2.2.2.2.1⟩

/-! ## Filename metadata (paths.py), microsecond time scale

Python strings are modelled as Lean `String`/`List Char`; `re.search`
leftmost matching is a left-to-right scan trying each position.  All
timestamps on this side are microseconds since the Unix epoch (Python
`datetime` resolution; the Aeolus pattern carries milliseconds). -/

/-- ASCII whitespace stripped by Python `str.strip()`. -/
def isPyWs (c : Char) : Bool :=
  c = ' ' || c = '\t' || c = '\n' || c = '\r' || c = '\x0b' || c = '\x0c'

/-- Python `line.strip()`. -/
def stripCL (l : List Char) : List Char :=
  ((l.dropWhile isPyWs).reverse.dropWhile isPyWs).reverse

/-- Python `line.split("|", 1)`: split at the first `|`, if any. -/
def splitBarAux : List Char → Option (List Char × List Char)
  | [] => none
  | c :: cs =>
    if c = '|' then some ([], cs)
    else
      match splitBarAux cs with
      | none => none
      | some (a, b) => some (c :: a, b)

/-- Python `os.path.basename` (POSIX): the suffix after the last `/`. -/
def basenameCL (l : List Char) : List Char :=
  l.foldl (fun acc c => if c = '/' then [] else acc ++ [c]) []

/-- Consume exactly `n` regex `\d` digits. -/
def takeDigits : Nat → List Char → Option (List Char × List Char)
  | 0, cs => some ([], cs)
  | _+1, [] => none
  | n+1, c :: cs =>
    if c.isDigit then
      match takeDigits n cs with
      | none => none
      | some (a, b) => some (c :: a, b)
    else none

/-- Try the tail of pattern `_(\d{8}T\d{9})_` at one position (the leading
`_` already consumed); returns the 17 captured digit characters. -/
def p1At (cs : List Char) : Option (List Char) :=
  match takeDigits 8 cs with
  | none => none
  | some (d8, rest) =>
    match rest with
    | 'T' :: rest2 =>
      match takeDigits 9 rest2 with
      | none => none
      | some (d9, rest3) =>
        match rest3 with
        | '_' :: _ => some (d8 ++ d9)
        | _ => none
    | _ => none

/-- `re.search(r"_(\d{8}T\d{9})_", s)`: leftmost match. -/
def scanP1 : List Char → Option (List Char)
  | [] => none
  | c :: cs =>
    if c = '_' then
      match p1At cs with
      | some r => some r
      | none => scanP1 cs
    else scanP1 cs

/-- Tail of pattern `_(\d{8}T\d{6})Z?_` at one position: after the 6 time
digits either `_` follows directly or `Z_` does (the greedy `Z?` has the
same acceptance set). -/
def p2At (cs : List Char) : Option (List Char) :=
  match takeDigits 8 cs with
  | none => none
  | some (d8, rest) =>
    match rest with
    | 'T' :: rest2 =>
      match takeDigits 6 rest2 with
      | none => none
      | some (d6, rest3) =>
        match rest3 with
        | 'Z' :: '_' :: _ => some (d8 ++ d6)
        | '_' :: _ => some (d8 ++ d6)
        | _ => none
    | _ => none

/-- `re.search(r"_(\d{8}T\d{6})Z?_", s)`: leftmost match. -/
def scanP2 : List Char → Option (List Char)
  | [] => none
  | c :: cs =>
    if c = '_' then
      match p2At cs with
      | some r => some r
      | none => scanP2 cs
    else scanP2 cs

def digitsToNat (l : List Char) : Nat :=
  l.foldl (fun a c => a * 10 + (c.toNat - 48)) 0

def isLeapYear (y : Nat) : Bool :=
  (y % 4 == 0 && y % 100 != 0) || y % 400 == 0

def daysInMonth (y m : Nat) : Nat :=
  if m = 2 then (if isLeapYear y then 29 else 28)
  else if m = 4 ∨ m = 6 ∨ m = 9 ∨ m = 11 then 30
  else 31

/-- Days from 1970-01-01 of the civil date `y-m-d` (proleptic Gregorian,
Hinnant's algorithm; `Int` `/` is floor division, which is what the
`(y >= 0 ? y : y-399)/400` trick emulates in C). -/
def daysFromCivil (y m d : Nat) : Int :=
  let yAdj : Int := if m ≤ 2 then (y : Int) - 1 else (y : Int)
  let era : Int := yAdj / 400
  let yoe : Int := yAdj - era * 400
  let mp : Int := ((m : Int) + 9) % 12
  let doy : Int := (153 * mp + 2) / 5 + (d : Int) - 1
  let doe : Int := yoe * 365 + yoe / 4 - yoe / 100 + doy
  era * 146097 + doe - 719468

def usPerDay : Int := 86400000000

/-- The calendar validation `datetime.strptime` performs: month 1-12, day
within the month, year at least `MINYEAR = 1` (year 0000 raises
`ValueError`, which the code catches). -/
def civilOk (y m d : Nat) : Bool :=
  decide (1 ≤ y) && decide (1 ≤ m) && decide (m ≤ 12) && decide (1 ≤ d) &&
    decide (d ≤ daysInMonth y m)

/-- `datetime` field validation: hour 0-23, minute 0-59, second 0-59
(`strptime`'s `%S` admits 60-61 but the `datetime` constructor then raises
`ValueError`, also caught). -/
def timeOk (h mi s : Nat) : Bool :=
  decide (h ≤ 23) && decide (mi ≤ 59) && decide (s ≤ 59)

def toEpochUs (y m d h mi s us : Nat) : Int :=
  daysFromCivil y m d * usPerDay + (((h * 3600 + mi * 60 + s) * 1000000 + us : Nat) : Int)

/-- `datetime.strptime(ds, "%Y%m%dT%H%M%S%f")` on the 17 captured digits
(the greedy `\d{1,n}` groups of `_strptime` consume exactly 4/2/2, `T`,
2/2/2/3 here); `%f` zero-pads the 3 millisecond digits on the right, so
they contribute `f * 1000` microseconds. -/
def parseTs17 (ds : List Char) : Option Int :=
  let y := digitsToNat (ds.take 4)
  let mo := digitsToNat ((ds.drop 4).take 2)
  let d := digitsToNat ((ds.drop 6).take 2)
  let h := digitsToNat ((ds.drop 8).take 2)
  let mi := digitsToNat ((ds.drop 10).take 2)
  let s := digitsToNat ((ds.drop 12).take 2)
  let f := digitsToNat ((ds.drop 14).take 3)
  if civilOk y mo d && timeOk h mi s then some (toEpochUs y mo d h mi s (f * 1000))
  else none

/-- `datetime.strptime(ds, "%Y%m%dT%H%M%S")` on the 14 captured digits. -/
def parseTs14 (ds : List Char) : Option Int :=
  let y := digitsToNat (ds.take 4)
  let mo := digitsToNat ((ds.drop 4).take 2)
  let d := digitsToNat ((ds.drop 6).take 2)
  let h := digitsToNat ((ds.drop 8).take 2)
  let mi := digitsToNat ((ds.drop 10).take 2)
  let s := digitsToNat ((ds.drop 12).take 2)
  if civilOk y mo d && timeOk h mi s then some (toEpochUs y mo d h mi s 0)
  else none

/-- `extract_sensing_time(filename)` (paths.py, lines 75-116): strip the
directory, try the millisecond pattern first (a match whose `strptime`
raises falls through), then the 6-digit pattern; `None` when neither
yields a valid timestamp.  Returned value: microseconds since epoch, UTC. -/
def extract_sensing_time (filename : String) : Option Int :=
  let f := basenameCL filename.data
  match scanP1 f with
  | some ds =>
    match parseTs17 ds with
    | some t => some t
    | none =>
      match scanP2 f with
      | some ds2 => parseTs14 ds2
      | none => none
  | none =>
    match scanP2 f with
    | some ds2 => parseTs14 ds2
    | none => none

/-- The keep-predicate of `filter_by_sensing_time`'s loop body: drop items
without an extractable sensing time, keep those within the inclusive
bounds. -/
def keepBySensing (start end_ : Option Int) (item : String) : Bool :=
  match extract_sensing_time item with
  | none => false
  | some t =>
    (match start with
     | none => true
     | some s => decide (s ≤ t)) &&
    (match end_ with
     | none => true
     | some e => decide (t ≤ e))

/-- `filter_by_sensing_time(items, start, end)` (paths.py, lines 434-461):
with both bounds absent the input list is returned unchanged; otherwise
the loop appends, in input order, exactly the items passing
`keepBySensing`. -/
def filter_by_sensing_time (items : List String) (start end_ : Option Int) : List String :=
  match start, end_ with
  | none, none => items
  | _, _ => items.filter (keepBySensing start end_)

theorem filter_by_sensing_time_eq_filter {start end_ : Option Int}
    (h : start ≠ none ∨ end_ ≠ none) (items : List String) :
    filter_by_sensing_time items start end_ = items.filter (keepBySensing start end_) := by
  rcases start with _ | s <;> rcases end_ with _ | e <;> first
    | rfl
    | (exact absurd h (by simp))

theorem keepBySensing_eq_true {start end_ : Option Int} {u : String} :
    keepBySensing start end_ u = true ↔
      ∃ t, extract_sensing_time u = some t ∧
        (∀ s, start = some s → s ≤ t) ∧ (∀ e, end_ = some e → t ≤ e) := by
  constructor
  · intro hk
    unfold keepBySensing at hk
    rcases hext : extract_sensing_time u with _ | t
    · rw [hext] at hk; cases hk
    · rw [hext, Bool.and_eq_true] at hk
      refine ⟨t, rfl, ?_, ?_⟩
      · rintro s rfl
        simpa using hk.1
      · rintro e rfl
        simpa using hk.2
  · rintro ⟨t, hext, hs, he⟩
    unfold keepBySensing
    rw [hext, Bool.and_eq_true]
    constructor
    · rcases start with _ | s
      · rfl
      · simpa using hs s rfl
    · rcases end_ with _ | e
      · rfl
      · simpa using he e rfl

theorem mem_filter_by_sensing_time {start end_ : Option Int}
    (h : start ≠ none ∨ end_ ≠ none) (items : List String) (u : String) :
    u ∈ filter_by_sensing_time items start end_ ↔
      u ∈ items ∧ ∃ t, extract_sensing_time u = some t ∧
        (∀ s, start = some s → s ≤ t) ∧ (∀ e, end_ = some e → t ≤ e) := by
  rw [filter_by_sensing_time_eq_filter h, List.mem_filter, keepBySensing_eq_true]

/-- C10: with both bounds `None`, `filter_by_sensing_time` returns its
input unchanged (unextractable items included); with at least one bound,
the result is a subsequence of the input (hence in input order) whose
members are exactly the input items with an extractable sensing time
lying within the given inclusive bounds. -/
theorem filter_by_sensing_time_spec (items : List String) (start end_ : Option Int)
    (h : start ≠ none ∨ end_ ≠ none) :
    (∀ l : List String, filter_by_sensing_time l none none = l) ∧
    (filter_by_sensing_time items start end_).Sublist items ∧
    (∀ u, u ∈ filter_by_sensing_time items start end_ ↔
      u ∈ items ∧ ∃ t, extract_sensing_time u = some t ∧
        (∀ s, start = some s → s ≤ t) ∧ (∀ e, end_ = some e → t ≤ e)) :=
  ⟨fun _ => rfl,
   filter_by_sensing_time_eq_filter h items ▸ List.filter_sublist items,
   mem_filter_by_sensing_time h items⟩

/-- An EarthCARE product filename (sensing time 2025-09-08T23:25:05Z,
i.e. 1757373905000000 microseconds since epoch). -/
def fnameECA : String := "ECA_EXBC_BM__RAD_2B_20250908T232505Z_20250909T010458Z_07282E.h5"

/-- An Aeolus product filename with millisecond sensing time
(2023-04-22T16:57:21.033Z = 1682182641033000 us). -/
def fnameAE : String := "AE_OPER_ALD_U_N_1B_20230422T165721033_005543989_027018_0001.DBL"

/-- A filename with no extractable sensing time. -/
def fnameBad : String := "not_a_product.txt"

/-- Witness instantiating `filter_by_sensing_time_spec` on a two-element
list with one extractable and one unextractable filename and bound
`start = 0`. -/
theorem filter_by_sensing_time_spec_witness :
    filter_by_sensing_time [fnameECA, fnameBad] none none = [fnameECA, fnameBad] ∧
    (fnameECA ∈ filter_by_sensing_time [fnameECA, fnameBad] (some 0) none ↔
      fnameECA ∈ [fnameECA, fnameBad] ∧ ∃ t, extract_sensing_time fnameECA = some t ∧
        (∀ s, (some (0 : Int)) = some s → s ≤ t) ∧
        (∀ e, (none : Option Int) = some e → t ≤ e)) ∧
    filter_by_sensing_time [fnameECA, fnameBad] (some 0) none = [fnameECA] := by
  have h := filter_by_sensing_time_spec [fnameECA, fnameBad] (some 0) none (Or.inl (by simp))
  exact ⟨h.1 _, h.2.2 fnameECA, by decide⟩

/-! ## `search_has_any_product` (C5) -/

/-- `datetime.min` (0001-01-01T00:00:00) in microseconds since epoch, the
sort key for URLs with no extractable sensing time. -/
def dtMinUs : Int := daysFromCivil 1 1 1 * usPerDay

/-- The sort key of `MaapSearcher._sort_urls`:
`extract_sensing_time(u) or datetime.min`. -/
def sensKey (u : String) : Int := (extract_sensing_time u).getD dtMinUs

def insertByKey (x : String) : List String → List String
  | [] => [x]
  | y :: ys => if decide (sensKey x ≤ sensKey y) then x :: y :: ys else y :: insertByKey x ys

/-- `MaapSearcher._sort_urls` (search.py, lines 179-182): stable ascending
sort by sensing time (Python `sorted` is a stable comparison sort; a
stable insertion sort has the same input-output behaviour).  Model note:
on a list that mixes extractable and unextractable sensing times Python
would raise comparing the naive `datetime.min` against aware datetimes;
every call relevant here sorts an already sensing-filtered list, where all
keys are extractable. -/
def sort_urls (l : List String) : List String := l.foldr insertByKey []

theorem length_insertByKey (x : String) (l : List String) :
    (insertByKey x l).length = l.length + 1 := by
  induction l with
  | nil => rfl
  | cons y ys ih =>
    unfold insertByKey
    split_ifs <;> simp [ih]

theorem length_sort_urls (l : List String) : (sort_urls l).length = l.length := by
  induction l with
  | nil => rfl
  | cons y ys ih =>
    show (insertByKey y (sort_urls ys)).length = ys.length + 1
    rw [length_insertByKey, ih]

/-- `MaapSearcher._clean_search_results(search, product_type, start, end,
dedup=False)` as called from `search_has_any_product` (search.py, lines
200-225 and 265): the enclosure URLs of the result items (the asset-key
selection of `_extract_enclosures` is abstracted into the `urls` input),
sensing-filtered, then sorted; `dedup=False` skips deduplication. -/
def clean_search_results_nodedup (urls : List String) (start end_ : Option Int) :
    List String :=
  sort_urls (filter_by_sensing_time urls start end_)

/-- `MaapSearcher.search_has_any_product` (search.py, lines 227-269) after
the STAC call: `matched` is `search.matched()` and `urls` the enclosure
URLs of the returned items (capped at 150 by the query).  A `None` or zero
matched count is definitive absence; with `start is None` a positive count
returns `True` directly; otherwise the items are post-filtered by sensing
time and existence requires at least one survivor. -/
def search_has_any_product (matched : Option Nat) (urls : List String)
    (start end_ : Option Int) : Bool :=
  match matched with
  | none => false
  | some 0 => false
  | some (_+1) =>
    match start with
    | none => true
    | some _ => decide (1 ≤ (clean_search_results_nodedup urls start end_).length)

/-- C5: `search_has_any_product` returns `False` whenever the backend
reports an absent or zero matched count, whatever the bounds; and when the
matched count is positive and the caller provided a time range
`[a, b]` (both bounds, which is also the only shape the code forwards to
the STAC query as a datetime filter), it post-filters the returned items
by filename-derived sensing time and returns `True` exactly when at least
one item's sensing time lies within `[a, b]`. -/
theorem search_has_any_product_spec (matched : Option Nat) (urls : List String)
    (a b : Int) :
    (∀ s e : Option Int, matched = none ∨ matched = some 0 →
      search_has_any_product matched urls s e = false) ∧
    (∀ n, matched = some n → 0 < n →
      (search_has_any_product matched urls (some a) (some b) = true ↔
        ∃ u ∈ urls, ∃ t, extract_sensing_time u = some t ∧ a ≤ t ∧ t ≤ b)) := by
  constructor
  · rintro s e (rfl | rfl) <;> rfl
  · rintro n rfl hpos
    obtain ⟨m, rfl⟩ : ∃ m, n = m + 1 := ⟨n - 1, by omega⟩
    show decide (1 ≤ (clean_search_results_nodedup urls (some a) (some b)).length) = true ↔ _
    rw [decide_eq_true_iff]
    unfold clean_search_results_nodedup
    rw [length_sort_urls]
    have hmem := fun u => mem_filter_by_sensing_time
      (show (some a : Option Int) ≠ none ∨ (some b : Option Int) ≠ none from Or.inl (by simp))
      urls u
    constructor
    · intro hlen
      obtain ⟨u, hu⟩ := List.exists_mem_of_length_pos
        (show 0 < (filter_by_sensing_time urls (some a) (some b)).length by omega)
      obtain ⟨hin, t, hext, hs, he⟩ := (hmem u).mp hu
      exact ⟨u, hin, t, hext, hs a rfl, he b rfl⟩
    · rintro ⟨u, hin, t, hext, hs, he⟩
      have hu : u ∈ filter_by_sensing_time urls (some a) (some b) :=
        (hmem u).mpr ⟨hin, t, hext, by rintro s hs'; cases hs'; exact hs,
          by rintro e he'; cases he'; exact he⟩
      have := List.length_pos_of_mem hu
      omega

/-- Witness instantiating `search_has_any_product_spec`: zero matched
count gives `False`; matched count 1 with range `[0, 2556143999000000]`
(up to 2050) over one EarthCARE item gives `True`, and the
characterization holds. -/
theorem search_has_any_product_spec_witness :
    search_has_any_product (some 0) [fnameECA] none none = false ∧
    (search_has_any_product (some 1) [fnameECA] (some 0) (some 2556143999000000) = true ↔
      ∃ u ∈ [fnameECA], ∃ t, extract_sensing_time u = some t ∧ 0 ≤ t ∧
        t ≤ 2556143999000000) ∧
    search_has_any_product (some 1) [fnameECA] (some 0) (some 2556143999000000) = true := by
  have h := search_has_any_product_spec (some 0) [fnameECA] 0 2556143999000000
  have h1 := search_has_any_product_spec (some 1) [fnameECA] 0 2556143999000000
  exact ⟨h.1 none none (Or.inr rfl), h1.2 1 rfl (by decide), by decide⟩

/-! ## Registry store and state tracker (registry.py, tracker.py)

A registry kind (urls / downloads) is a set of date-partitioned text
files.  Files are keyed directly by the day number of their date (the
`{prefix}{YYYYMMDD}.txt` naming and `extract_file_date` round trip is made
explicit); a file is its list of text lines. -/

/-- One line of `read_pairs_file` (registry.py, lines 17-41): strip,
skip blank lines and `#` comments, split at the first `|` (a line with no
`|` yields an empty second component). -/
def parse_line (line : String) : Option (String × String) :=
  match stripCL line.data with
  | [] => none
  | c :: cs =>
    if c = '#' then none
    else
      match splitBarAux (c :: cs) with
      | none => some (String.mk (c :: cs), "")
      | some (a, b) => some (String.mk a, String.mk b)

/-- `read_pairs_file` on the lines of an existing file. -/
def read_pairs (lines : List String) : List (String × String) :=
  lines.filterMap parse_line

/-- `read_pairs_file(file_path)` (registry.py, lines 17-41): `[]` for a
missing file. -/
def read_pairs_file : Option (List String) → List (String × String)
  | none => []
  | some lines => read_pairs lines

/-- The per-line test of `Registry.count_lines`'s own loop (registry.py,
lines 143-158): `line = line.strip(); if line and not
line.startswith("#")`. -/
def countedLine (line : String) : Bool :=
  match stripCL line.data with
  | [] => false
  | c :: _ => c != '#'

/-- `Registry.count_lines` on the lines of an existing file. -/
def count_lines (lines : List String) : Nat :=
  lines.countP countedLine

/-- `Registry.count_lines(file_path)` (registry.py, lines 143-158): 0 for
a missing file. -/
def count_lines_file : Option (List String) → Nat
  | none => 0
  | some lines => count_lines lines

/-- A registry kind directory: files keyed by day number. -/
abbrev FileStore := List (Int × List String)

/-- `file_path.exists()` / reading a file of the store. -/
def lookupFile (fs : FileStore) (d : Int) : Option (List String) :=
  (fs.find? (fun p => p.1 == d)).map (fun p => p.2)

/-- `Registry.append_line` (open mode `"a"`, with `ensure_dir`): append
one line to day `d`'s file, creating the file when absent. -/
def appendLineFS (fs : FileStore) (d : Int) (line : String) : FileStore :=
  if fs.any (fun p => p.1 == d) then
    fs.map (fun p => if p.1 == d then (p.1, p.2 ++ [line]) else p)
  else fs ++ [(d, [line])]

/-- Overwrite day `d`'s file with `lines` (open mode `"w"`). -/
def writeFileFS (fs : FileStore) (d : Int) (lines : List String) : FileStore :=
  if fs.any (fun p => p.1 == d) then
    fs.map (fun p => if p.1 == d then (p.1, lines) else p)
  else fs ++ [(d, lines)]

/-- `dt.date()` of a microsecond timestamp, as a day number. -/
def usDay (t : Int) : Int := t / usPerDay

/-- The coarse file-date window test of `read_daily_pairs` (registry.py,
lines 217-222): a file is read unless `start_date and fdate < start_date`
or `end_date and fdate > end_date` fires a `continue`. -/
def fileInWindow (startD endD : Option Int) (d : Int) : Bool :=
  !(match startD with
    | some sd => decide (d < sd)
    | none => false) &&
  !(match endD with
    | some ed => decide (ed < d)
    | none => false)

/-- `Registry.read_daily_pairs(files, prefix, start_date, end_date)`
(registry.py, lines 196-225): skip files dated strictly before
`start_date` or strictly after `end_date`, concatenate the remaining
files' pairs tagged with the file date. -/
def read_daily_pairs (fs : FileStore) (startD endD : Option Int) :
    List (String × String × Int) :=
  fs.flatMap (fun p =>
    if fileInWindow startD endD p.1 then (read_pairs p.2).map (fun q => (q.1, q.2, p.1))
    else [])

/-- The state a `StateTracker` reads and writes: the URL files and the
download files of its (collection, product, baseline) triple. -/
structure TrackerState where
  urlFiles : FileStore
  dwlFiles : FileStore

/-- `StateTracker.mark_downloaded(url, local_path)` (tracker.py, lines
169-200), for a tracker built without a `data_dir` (so `path_str` is the
given `local_path` or empty and `url_to_local_path` is never consulted):
if no sensing time is extractable from the URL, log and return `False`
with the registry untouched; otherwise append the single record
`f"{url}|{path_str}"` to the download file of the URL's sensing date and
return `True`. -/
def mark_downloaded (st : TrackerState) (url : String) (localPath : Option String) :
    Bool × TrackerState :=
  match extract_sensing_time url with
  | none => (false, st)
  | some t =>
    (true, { st with
      dwlFiles := appendLineFS st.dwlFiles (usDay t) (url ++ "|" ++ localPath.getD "") })

/-- The dict-building step of `load_urls_with_paths`:
`url_to_pair[url] = (url, path)` keeps first-insertion order and
overwrites the value on a repeated key. -/
def upsert (acc : List (String × String)) (kv : String × String) :
    List (String × String) :=
  if acc.any (fun p => p.1 == kv.1) then
    acc.map (fun p => if p.1 == kv.1 then (p.1, kv.2) else p)
  else acc ++ [kv]

/-- `StateTracker.load_urls_with_paths(start, end)` (tracker.py, lines
100-121): read the URL files date-filtered at file level, dedup by URL via
a dict, filter the URL keys by exact sensing time, return the surviving
`(url, path)` pairs. -/
def load_urls_with_paths (st : TrackerState) (start end_ : Option Int) :
    List (String × String) :=
  let pairs := read_daily_pairs st.urlFiles (start.map usDay) (end_.map usDay)
  let results := pairs.map (fun q => (q.1, q.2.1))
  let dict := results.foldl upsert []
  let filtered := filter_by_sensing_time (dict.map Prod.fst) start end_
  filtered.map (fun u =>
    (u, (((dict.find? (fun q => q.1 == u)).map (fun q => q.2)).getD "")))

/-- `StateTracker.get_downloaded_urls(start, end)` (tracker.py, lines
241-259): the URLs of the date-filtered download records, post-filtered by
exact sensing time (a Python `set`; modelled as the list, all statements
below are membership statements). -/
def get_downloaded_urls (st : TrackerState) (start end_ : Option Int) : List String :=
  filter_by_sensing_time
    ((read_daily_pairs st.dwlFiles (start.map usDay) (end_.map usDay)).map Prod.fst)
    start end_

/-- `StateTracker.get_pending_downloads(start, end)` (tracker.py, lines
311-326): `all_urls - downloaded` as a set difference. -/
def get_pending_downloads (st : TrackerState) (start end_ : Option Int) : List String :=
  let allUrls := (load_urls_with_paths st start end_).map Prod.fst
  let downloaded := get_downloaded_urls st start end_
  allUrls.filter (fun u => !(downloaded.contains u))

/-- The URLs discovered in the URL records for a window: the claim's
left-hand set, read directly (date-filtered at file level, then exact
sensing-time filtered — the same double filter every tracker read
performs). -/
def discovered_urls (st : TrackerState) (start end_ : Option Int) : List String :=
  filter_by_sensing_time
    ((read_daily_pairs st.urlFiles (start.map usDay) (end_.map usDay)).map Prod.fst)
    start end_

/-- Calling `mark_downloaded(u)` in turn for every URL of `urls`. -/
def markAll (st : TrackerState) (urls : List String) : TrackerState :=
  urls.foldl (fun s u => (mark_downloaded s u none).2) st

/-- A well-formed registry URL: nonempty, no whitespace, not a comment
line, and containing no `|` (the record separator).  All URLs the system
itself writes satisfy this. -/
def wellFormedUrl (u : String) : Bool :=
  match u.data with
  | [] => false
  | c :: cs => !(c == '#') && !((c :: cs).any isPyWs) && !((c :: cs).contains '|')

theorem parse_line_isSome (line : String) : (parse_line line).isSome = countedLine line := by
  unfold parse_line countedLine
  cases h : stripCL line.data with
  | nil => rfl
  | cons c cs =>
    dsimp only
    by_cases hc : c = '#'
    · subst hc
      simp
    · have hbne : (c != '#') = true := by simpa using hc
      rw [if_neg hc, hbne]
      cases splitBarAux (c :: cs) with
      | none => rfl
      | some p => cases p; rfl

/-- C8: `count_lines` returns exactly the number of records `read_pairs`
returns for the same file — line by line, a line is counted iff it parses
to a record (same blank-line and `#`-comment rule) — and both return
0 / the empty list for a missing file.  This equality is what the
skip-if-same-count branch of `save_urls` compares against. -/
theorem count_lines_matches_read_pairs (f : Option (List String)) :
    count_lines_file f = (read_pairs_file f).length ∧
    count_lines_file none = 0 ∧ read_pairs_file none = [] ∧
    (∀ line, (parse_line line).isSome = countedLine line) := by
  refine ⟨?_, rfl, rfl, parse_line_isSome⟩
  cases f with
  | none => rfl
  | some lines =>
    show count_lines lines = (read_pairs lines).length
    unfold count_lines read_pairs
    rw [List.length_filterMap_eq_countP]
    exact (List.countP_congr fun a _ => by rw [parse_line_isSome a]).symm

theorem wellFormedUrl_spec {u : String} (h : wellFormedUrl u = true) :
    u.data ≠ [] ∧ (∀ c ∈ u.data, isPyWs c = false) ∧
    (∀ c cs, u.data = c :: cs → c ≠ '#') ∧ '|' ∉ u.data := by
  unfold wellFormedUrl at h
  rcases hd : u.data with _ | ⟨c, cs⟩
  · rw [hd] at h; cases h
  · rw [hd] at h
    simp only [Bool.and_eq_true, Bool.not_eq_true'] at h
    obtain ⟨⟨h1, h2⟩, h3⟩ := h
    refine ⟨by simp, ?_, ?_, ?_⟩
    · intro x hx
      have := List.any_eq_false.mp h2 x hx
      simpa using this
    · intro c' cs' he
      injection he with hce hcse
      subst hce
      simpa using h1
    · intro hmem
      have : (c :: cs).contains '|' = true := by
        simpa [List.elem_iff] using hmem
      rw [this] at h3
      cases h3

theorem dropWhile_eq_self_of {p : Char → Bool} {l : List Char}
    (h : ∀ c ∈ l, p c = false) : l.dropWhile p = l := by
  cases l with
  | nil => rfl
  | cons c cs =>
    rw [List.dropWhile_cons, h c (by simp)]
    simp

theorem stripCL_no_ws {l : List Char} (h : ∀ c ∈ l, isPyWs c = false) : stripCL l = l := by
  unfold stripCL
  rw [dropWhile_eq_self_of h, dropWhile_eq_self_of (fun c hc => h c (by simpa using hc)),
    List.reverse_reverse]

theorem splitBarAux_append_bar {l : List Char} (h : '|' ∉ l) (r : List Char) :
    splitBarAux (l ++ '|' :: r) = some (l, r) := by
  induction l with
  | nil => simp [splitBarAux]
  | cons c cs ih =>
    have hc : c ≠ '|' := by rintro rfl; exact h (by simp)
    have hcs : '|' ∉ cs := fun hm => h (by simp [hm])
    show splitBarAux (c :: (cs ++ '|' :: r)) = _
    unfold splitBarAux
    rw [if_neg hc, ih hcs]

theorem string_mk_data (u : String) : String.mk u.data = u := by
  cases u
  rfl

/-- The record `mark_downloaded` writes for a well-formed URL and no
local path parses back to `(url, "")`. -/
theorem parse_line_mark {u : String} (hwf : wellFormedUrl u = true) :
    parse_line (u ++ "|" ++ "") = some (u, "") := by
  obtain ⟨hne, hws, hhash, hbar⟩ := wellFormedUrl_spec hwf
  have hdata : (u ++ "|" ++ "").data = u.data ++ ['|'] := by
    simp [String.data_append]
  have hnows : ∀ c ∈ u.data ++ ['|'], isPyWs c = false := by
    intro c hc
    rcases List.mem_append.mp hc with hc | hc
    · exact hws c hc
    · simp only [List.mem_singleton] at hc
      subst hc
      rfl
  obtain ⟨c, cs, hd⟩ : ∃ c cs, u.data = c :: cs := List.exists_cons_of_ne_nil hne
  have hc : c ≠ '#' := hhash c cs hd
  have hbar' : '|' ∉ c :: cs := hd ▸ hbar
  have hsb : splitBarAux (c :: (cs ++ ['|'])) = some (c :: cs, []) :=
    splitBarAux_append_bar hbar' []
  unfold parse_line
  rw [hdata, stripCL_no_ws hnows, hd, List.cons_append]
  dsimp only
  rw [if_neg hc, hsb]
  dsimp only
  rw [← hd, string_mk_data]

theorem fileInWindow_iff {sD eD : Option Int} {d : Int} :
    fileInWindow sD eD d = true ↔
      (∀ sd, sD = some sd → sd ≤ d) ∧ (∀ ed, eD = some ed → d ≤ ed) := by
  unfold fileInWindow
  rcases sD with _ | sd <;> rcases eD with _ | ed
  · constructor
    · intro h
      constructor
      · intro sd h'
        exact nomatch h'
      · intro ed h'
        exact nomatch h'
    · intro h
      rfl
  · constructor
    · intro h
      constructor
      · intro sd h'
        exact nomatch h'
      · intro ed' h'
        cases h'
        simp at h
        omega
    · rintro ⟨-, h⟩
      have := h ed rfl
      simp
      omega
  · constructor
    · intro h
      constructor
      · intro sd' h'
        cases h'
        simp at h
        omega
      · intro ed h'
        exact nomatch h'
    · rintro ⟨h, -⟩
      have := h sd rfl
      simp
      omega
  · constructor
    · intro h
      simp at h
      constructor
      · intro sd' h'
        cases h'
        omega
      · intro ed' h'
        cases h'
        omega
    · rintro ⟨h1, h2⟩
      have := h1 sd rfl
      have := h2 ed rfl
      simp
      omega

theorem mem_fst_read_daily_pairs {fs : FileStore} {sD eD : Option Int} {u : String} :
    u ∈ (read_daily_pairs fs sD eD).map Prod.fst ↔
      ∃ d lines b, (d, lines) ∈ fs ∧
        (∀ sd, sD = some sd → sd ≤ d) ∧ (∀ ed, eD = some ed → d ≤ ed) ∧
        (u, b) ∈ read_pairs lines := by
  unfold read_daily_pairs
  constructor
  · intro hu
    obtain ⟨x, hx, hfx⟩ := List.mem_map.mp hu
    obtain ⟨p, hp, hxp⟩ := List.mem_flatMap.mp hx
    by_cases hw : fileInWindow sD eD p.1 = true
    · rw [if_pos hw] at hxp
      obtain ⟨q, hq, hqx⟩ := List.mem_map.mp hxp
      obtain ⟨h1, h2⟩ := fileInWindow_iff.mp hw
      refine ⟨p.1, p.2, q.2, by simpa using hp, h1, h2, ?_⟩
      have : q.1 = u := by rw [← hfx, ← hqx]
      rw [← this]
      simpa using hq
    · rw [if_neg hw] at hxp
      cases hxp
  · rintro ⟨d, lines, b, hmem, h1, h2, hpair⟩
    apply List.mem_map.mpr
    refine ⟨(u, b, d), ?_, rfl⟩
    apply List.mem_flatMap.mpr
    refine ⟨(d, lines), hmem, ?_⟩
    rw [if_pos (fileInWindow_iff.mpr ⟨h1, h2⟩)]
    exact List.mem_map.mpr ⟨(u, b), hpair, rfl⟩

theorem keys_upsert (acc : List (String × String)) (kv : String × String) (u : String) :
    u ∈ (upsert acc kv).map Prod.fst ↔ u ∈ acc.map Prod.fst ∨ u = kv.1 := by
  unfold upsert
  split_ifs with h
  · have hkeys : (acc.map (fun p => if p.1 == kv.1 then (p.1, kv.2) else p)).map Prod.fst
        = acc.map Prod.fst := by
      rw [List.map_map]
      apply List.map_congr_left
      intro p _
      by_cases hp : p.1 = kv.1 <;> simp [hp]
    rw [hkeys]
    have hk : kv.1 ∈ acc.map Prod.fst := by
      obtain ⟨p, hp, hpe⟩ := List.any_eq_true.mp h
      exact List.mem_map.mpr ⟨p, hp, by simpa using hpe⟩
    constructor
    · exact Or.inl
    · rintro (h' | rfl)
      · exact h'
      · exact hk
  · rw [List.map_append]
    simp [eq_comm]

theorem mem_keys_foldl_upsert (l : List (String × String)) (acc : List (String × String))
    (u : String) :
    u ∈ (l.foldl upsert acc).map Prod.fst ↔ u ∈ acc.map Prod.fst ∨ u ∈ l.map Prod.fst := by
  induction l generalizing acc with
  | nil => simp
  | cons kv rest ih =>
    rw [List.foldl_cons, ih, keys_upsert]
    simp only [List.map_cons, List.mem_cons]
    tauto

theorem fst_load_urls_with_paths (st : TrackerState) (start end_ : Option Int) :
    (load_urls_with_paths st start end_).map Prod.fst =
      filter_by_sensing_time
        ((((read_daily_pairs st.urlFiles (start.map usDay) (end_.map usDay)).map
            (fun q => (q.1, q.2.1))).foldl upsert []).map Prod.fst) start end_ := by
  unfold load_urls_with_paths
  rw [List.map_map]
  exact List.map_id _

/-- Membership in the URL side of `get_pending_downloads` coincides with
membership in the directly-read discovered set: the URL dict of
`load_urls_with_paths` changes paths and order, never the URL set. -/
theorem mem_load_iff_discovered (st : TrackerState) (start end_ : Option Int) (u : String) :
    u ∈ (load_urls_with_paths st start end_).map Prod.fst ↔
      u ∈ discovered_urls st start end_ := by
  rw [fst_load_urls_with_paths]
  unfold discovered_urls
  have hkeys : ∀ v, v ∈ (((read_daily_pairs st.urlFiles (start.map usDay)
        (end_.map usDay)).map (fun q => (q.1, q.2.1))).foldl upsert []).map Prod.fst ↔
      v ∈ (read_daily_pairs st.urlFiles (start.map usDay) (end_.map usDay)).map
        Prod.fst := by
    intro v
    rw [mem_keys_foldl_upsert]
    rw [List.map_map]
    simp only [List.map_nil, List.not_mem_nil, false_or]
    rfl
  by_cases hno : start = none ∧ end_ = none
  · obtain ⟨rfl, rfl⟩ := hno
    exact hkeys u
  · have h' : start ≠ none ∨ end_ ≠ none := not_and_or.mp hno
    rw [mem_filter_by_sensing_time h', mem_filter_by_sensing_time h', hkeys u]

theorem mem_filter_sensing_mono {l l' : List String} {start end_ : Option Int}
    (hsub : ∀ x, x ∈ l → x ∈ l') {u : String}
    (h : u ∈ filter_by_sensing_time l start end_) :
    u ∈ filter_by_sensing_time l' start end_ := by
  by_cases hno : start = none ∧ end_ = none
  · obtain ⟨rfl, rfl⟩ := hno
    exact hsub u h
  · have h' : start ≠ none ∨ end_ ≠ none := not_and_or.mp hno
    rw [mem_filter_by_sensing_time h'] at h ⊢
    exact ⟨hsub u h.1, h.2⟩

theorem mem_filter_sensing_intro {l : List String} {start end_ : Option Int} {u : String}
    {t : Int} (hl : u ∈ l) (hext : extract_sensing_time u = some t)
    (hs : ∀ s, start = some s → s ≤ t) (he : ∀ e, end_ = some e → t ≤ e) :
    u ∈ filter_by_sensing_time l start end_ := by
  by_cases hno : start = none ∧ end_ = none
  · obtain ⟨rfl, rfl⟩ := hno
    exact hl
  · have h' : start ≠ none ∨ end_ ≠ none := not_and_or.mp hno
    rw [mem_filter_by_sensing_time h']
    exact ⟨hl, t, hext, hs, he⟩

theorem lines_appendLineFS {fs : FileStore} {d0 : Int} {lines : List String}
    (h : (d0, lines) ∈ fs) (d : Int) (line : String) :
    ∃ lines', (d0, lines') ∈ appendLineFS fs d line ∧
      (lines' = lines ∨ lines' = lines ++ [line]) := by
  unfold appendLineFS
  split_ifs with hany
  · by_cases hd : d0 = d
    · refine ⟨lines ++ [line], ?_, Or.inr rfl⟩
      apply List.mem_map.mpr
      refine ⟨(d0, lines), h, ?_⟩
      simp [hd]
    · refine ⟨lines, ?_, Or.inl rfl⟩
      apply List.mem_map.mpr
      refine ⟨(d0, lines), h, ?_⟩
      simp [hd]
  · exact ⟨lines, List.mem_append_left _ h, Or.inl rfl⟩

theorem self_appendLineFS (fs : FileStore) (d : Int) (line : String) :
    ∃ lines₀, (d, lines₀ ++ [line]) ∈ appendLineFS fs d line := by
  unfold appendLineFS
  split_ifs with hany
  · obtain ⟨p, hp, hpe⟩ := List.any_eq_true.mp hany
    have hpd : p.1 = d := by simpa using hpe
    refine ⟨p.2, ?_⟩
    apply List.mem_map.mpr
    refine ⟨p, hp, ?_⟩
    simp [hpd]
  · exact ⟨[], List.mem_append_right _ (by simp)⟩

theorem fst_read_daily_mono_append {fs : FileStore} {d : Int} {line : String}
    {sD eD : Option Int} {u : String}
    (h : u ∈ (read_daily_pairs fs sD eD).map Prod.fst) :
    u ∈ (read_daily_pairs (appendLineFS fs d line) sD eD).map Prod.fst := by
  rw [mem_fst_read_daily_pairs] at h ⊢
  obtain ⟨d0, lines, b, hmem, h1, h2, hpair⟩ := h
  obtain ⟨lines', hmem', hcase⟩ := lines_appendLineFS hmem d line
  refine ⟨d0, lines', b, hmem', h1, h2, ?_⟩
  rcases hcase with rfl | rfl
  · exact hpair
  · unfold read_pairs
    rw [List.filterMap_append]
    exact List.mem_append_left _ hpair

theorem usDay_mono {a b : Int} (h : a ≤ b) : usDay a ≤ usDay b := by
  unfold usDay usPerDay
  omega

theorem mark_downloaded_urlFiles (st : TrackerState) (u : String) (lp : Option String) :
    ((mark_downloaded st u lp).2).urlFiles = st.urlFiles := by
  unfold mark_downloaded
  cases extract_sensing_time u <;> rfl

theorem markAll_urlFiles (urls : List String) (st : TrackerState) :
    (markAll st urls).urlFiles = st.urlFiles := by
  induction urls generalizing st with
  | nil => rfl
  | cons v rest ih =>
    show (markAll (mark_downloaded st v none).2 rest).urlFiles = st.urlFiles
    rw [ih, mark_downloaded_urlFiles]

theorem discovered_markAll (st : TrackerState) (urls : List String)
    (start end_ : Option Int) :
    discovered_urls (markAll st urls) start end_ = discovered_urls st start end_ := by
  unfold discovered_urls
  rw [markAll_urlFiles]

theorem load_markAll (st : TrackerState) (urls : List String) (start end_ : Option Int) :
    load_urls_with_paths (markAll st urls) start end_ =
      load_urls_with_paths st start end_ := by
  unfold load_urls_with_paths
  rw [markAll_urlFiles]

theorem mark_gives_downloaded {st : TrackerState} {u : String} {t : Int}
    (hwf : wellFormedUrl u = true) (hext : extract_sensing_time u = some t)
    {start end_ : Option Int}
    (hs : ∀ s, start = some s → s ≤ t) (he : ∀ e, end_ = some e → t ≤ e) :
    u ∈ get_downloaded_urls (mark_downloaded st u none).2 start end_ := by
  have hstate : (mark_downloaded st u none).2 =
      { st with dwlFiles := appendLineFS st.dwlFiles (usDay t) (u ++ "|" ++ "") } := by
    unfold mark_downloaded
    rw [hext]
    rfl
  rw [hstate]
  unfold get_downloaded_urls
  apply mem_filter_sensing_intro ?_ hext hs he
  rw [mem_fst_read_daily_pairs]
  obtain ⟨lines0, hmem⟩ := self_appendLineFS st.dwlFiles (usDay t) (u ++ "|" ++ "")
  refine ⟨usDay t, lines0 ++ [u ++ "|" ++ ""], "", hmem, ?_, ?_, ?_⟩
  · intro sd hsd
    rcases start with _ | s
    · exact nomatch hsd
    · injection hsd with hsd'
      rw [← hsd']
      exact usDay_mono (hs s rfl)
  · intro ed hed
    rcases end_ with _ | e
    · exact nomatch hed
    · injection hed with hed'
      rw [← hed']
      exact usDay_mono (he e rfl)
  · unfold read_pairs
    rw [List.filterMap_append]
    apply List.mem_append_right
    simp
    simpa using parse_line_mark hwf

theorem downloaded_mono {st : TrackerState} {v : String} {lp : Option String}
    {start end_ : Option Int} {u : String}
    (h : u ∈ get_downloaded_urls st start end_) :
    u ∈ get_downloaded_urls (mark_downloaded st v lp).2 start end_ := by
  unfold mark_downloaded
  cases hext : extract_sensing_time v with
  | none => exact h
  | some t =>
    unfold get_downloaded_urls at h ⊢
    refine mem_filter_sensing_mono ?_ h
    intro x hx
    exact fst_read_daily_mono_append hx

theorem downloaded_markAll_mono {st : TrackerState} {u : String}
    {start end_ : Option Int} (urls : List String)
    (h : u ∈ get_downloaded_urls st start end_) :
    u ∈ get_downloaded_urls (markAll st urls) start end_ := by
  induction urls generalizing st with
  | nil => exact h
  | cons v rest ih =>
    show u ∈ get_downloaded_urls (markAll (mark_downloaded st v none).2 rest) start end_
    exact ih (downloaded_mono h)

theorem all_downloaded_markAll {start end_ : Option Int} (urls : List String)
    (hall : ∀ u ∈ urls, wellFormedUrl u = true ∧
      ∃ t, extract_sensing_time u = some t ∧
        (∀ s, start = some s → s ≤ t) ∧ (∀ e, end_ = some e → t ≤ e))
    (st : TrackerState) :
    ∀ u ∈ urls, u ∈ get_downloaded_urls (markAll st urls) start end_ := by
  induction urls generalizing st with
  | nil =>
    intro u hu
    cases hu
  | cons v rest ih =>
    intro u hu
    rcases List.mem_cons.mp hu with rfl | hu'
    · obtain ⟨hwf, t, hext, hs, he⟩ := hall u (by simp)
      have h1 : u ∈ get_downloaded_urls (mark_downloaded st u none).2 start end_ :=
        mark_gives_downloaded hwf hext hs he
      show u ∈ get_downloaded_urls (markAll (mark_downloaded st u none).2 rest) start end_
      exact downloaded_markAll_mono rest h1
    · show u ∈ get_downloaded_urls (markAll (mark_downloaded st v none).2 rest) start end_
      exact ih (fun w hw => hall w (by simp [hw])) _ u hu'

/-- C6: for every window, `get_pending_downloads` is exactly the set
difference (URLs discovered in the URL records) minus (URLs in the
download records), both read from the persisted files under the same
window filtering; and after `mark_downloaded` has been called for every
discovered URL of the window, `get_pending_downloads` is empty.  The
hypothesis states the registry invariant that discovered URLs are
well-formed record keys with extractable sensing times (every URL the
system itself persists satisfies it; with a partial window it is
automatic, since the read filter drops unextractable URLs). -/
theorem get_pending_downloads_spec (st : TrackerState) (start end_ : Option Int)
    (hwf : ∀ u ∈ discovered_urls st start end_,
      wellFormedUrl u = true ∧ (extract_sensing_time u).isSome = true) :
    (∀ u, u ∈ get_pending_downloads st start end_ ↔
      (u ∈ discovered_urls st start end_ ∧ u ∉ get_downloaded_urls st start end_)) ∧
    get_pending_downloads (markAll st (discovered_urls st start end_)) start end_ = [] := by
  have hpmem : ∀ (st' : TrackerState) (u : String),
      u ∈ get_pending_downloads st' start end_ ↔
        (u ∈ (load_urls_with_paths st' start end_).map Prod.fst ∧
          u ∉ get_downloaded_urls st' start end_) := by
    intro st' u
    unfold get_pending_downloads
    rw [List.mem_filter]
    simp
  constructor
  · intro u
    rw [hpmem st u, mem_load_iff_discovered]
  · have hbound : ∀ u ∈ discovered_urls st start end_,
        wellFormedUrl u = true ∧ ∃ t, extract_sensing_time u = some t ∧
          (∀ s, start = some s → s ≤ t) ∧ (∀ e, end_ = some e → t ≤ e) := by
      intro u hu
      obtain ⟨hw, hsome⟩ := hwf u hu
      obtain ⟨t, hext⟩ := Option.isSome_iff_exists.mp hsome
      refine ⟨hw, t, hext, ?_⟩
      by_cases hno : start = none ∧ end_ = none
      · obtain ⟨rfl, rfl⟩ := hno
        constructor
        · intro s h'
          exact nomatch h'
        · intro e h'
          exact nomatch h'
      · have h' := not_and_or.mp hno
        unfold discovered_urls at hu
        rw [mem_filter_by_sensing_time h'] at hu
        obtain ⟨-, t', hext', hs, he⟩ := hu
        rw [hext] at hext'
        injection hext' with ht
        subst ht
        exact ⟨hs, he⟩
    unfold get_pending_downloads
    rw [List.filter_eq_nil_iff]
    intro u hu
    have hudisc : u ∈ discovered_urls st start end_ := by
      rw [mem_load_iff_discovered, discovered_markAll] at hu
      exact hu
    have hdl := all_downloaded_markAll _ hbound st u hudisc
    simp [hdl]

/-- Witness instantiating `get_pending_downloads_spec` on a concrete
state: one discovered EarthCARE URL, nothing downloaded, no window. -/
theorem get_pending_downloads_spec_witness :
    (∀ u ∈ discovered_urls ⟨[(20339, [fnameECA])], []⟩ none none,
      wellFormedUrl u = true ∧ (extract_sensing_time u).isSome = true) ∧
    (fnameECA ∈ get_pending_downloads ⟨[(20339, [fnameECA])], []⟩ none none ↔
      (fnameECA ∈ discovered_urls ⟨[(20339, [fnameECA])], []⟩ none none ∧
        fnameECA ∉ get_downloaded_urls ⟨[(20339, [fnameECA])], []⟩ none none)) ∧
    get_pending_downloads
      (markAll ⟨[(20339, [fnameECA])], []⟩
        (discovered_urls ⟨[(20339, [fnameECA])], []⟩ none none)) none none = [] := by
  have h := get_pending_downloads_spec ⟨[(20339, [fnameECA])], []⟩ none none (by decide)
  exact ⟨by decide, h.1 fnameECA, h.2⟩

/-- The observable content of day `d`'s file: its lines, `[]` when the
file does not exist. -/
def fileLines (fs : FileStore) (d : Int) : List String := (lookupFile fs d).getD []

theorem find?_cons_pos' {α : Type} (q : α → Bool) (a : α) (l : List α) (h : q a = true) :
    List.find? q (a :: l) = some a := List.find?_cons_of_pos l h

theorem find?_cons_neg' {α : Type} (q : α → Bool) (a : α) (l : List α) (h : q a = false) :
    List.find? q (a :: l) = List.find? q l :=
  List.find?_cons_of_neg l (by simp [h])

theorem find?_key_map_append (fs : FileStore) (d : Int) (line : String) :
    ((fs.map (fun p => if p.1 == d then (p.1, p.2 ++ [line]) else p)).find?
        (fun p => p.1 == d)) =
      (fs.find? (fun p => p.1 == d)).map (fun p => (p.1, p.2 ++ [line])) := by
  induction fs with
  | nil => rfl
  | cons p rest ih =>
    by_cases hp : (p.1 == d) = true
    · rw [List.map_cons, if_pos hp,
        find?_cons_pos' (fun q => q.1 == d) (p.1, p.2 ++ [line]) _ hp,
        find?_cons_pos' (fun q => q.1 == d) p _ hp]
      rfl
    · have hp' : (p.1 == d) = false := by simpa using hp
      rw [List.map_cons, if_neg hp,
        find?_cons_neg' (fun q => q.1 == d) p _ hp',
        find?_cons_neg' (fun q => q.1 == d) p _ hp', ih]

theorem lookupFile_append_self (fs : FileStore) (d : Int) (line : String) :
    lookupFile (appendLineFS fs d line) d = some ((lookupFile fs d).getD [] ++ [line]) := by
  unfold lookupFile appendLineFS
  split_ifs with hany
  · rw [find?_key_map_append]
    cases hfind : fs.find? (fun p => p.1 == d) with
    | none =>
      obtain ⟨p, hp, hpe⟩ := List.any_eq_true.mp hany
      exact absurd hpe (List.find?_eq_none.mp hfind p hp)
    | some p =>
      rfl
  · have hnone : fs.find? (fun p => p.1 == d) = none := by
      rw [List.find?_eq_none]
      intro x hx hxe
      exact absurd (List.any_eq_true.mpr ⟨x, hx, hxe⟩) hany
    have hfind1 : ([((d : Int), [line])].find? (fun p => p.1 == d)) = some (d, [line]) := by
      apply find?_cons_pos'
      simp
    rw [List.find?_append, hnone, hfind1]
    simp

theorem find?_other_map_append (fs : FileStore) {d d' : Int} (h : d' ≠ d) (line : String) :
    (fs.map (fun p => if p.1 == d then (p.1, p.2 ++ [line]) else p)).find?
        (fun p => p.1 == d') = fs.find? (fun p => p.1 == d') := by
  induction fs with
  | nil => rfl
  | cons p rest ih =>
    by_cases hp : (p.1 == d) = true
    · have hpd : p.1 = d := by simpa using hp
      have hp' : (p.1 == d') = false := by
        simp [hpd]
        omega
      rw [List.map_cons, if_pos hp,
        find?_cons_neg' (fun q => q.1 == d') (p.1, p.2 ++ [line]) _ hp',
        find?_cons_neg' (fun q => q.1 == d') p _ hp', ih]
    · by_cases hq : (p.1 == d') = true
      · rw [List.map_cons, if_neg hp,
          find?_cons_pos' (fun q => q.1 == d') p _ hq,
          find?_cons_pos' (fun q => q.1 == d') p _ hq]
      · have hq' : (p.1 == d') = false := by simpa using hq
        rw [List.map_cons, if_neg hp,
          find?_cons_neg' (fun q => q.1 == d') p _ hq',
          find?_cons_neg' (fun q => q.1 == d') p _ hq', ih]

theorem lookupFile_append_ne (fs : FileStore) {d d' : Int} (h : d' ≠ d) (line : String) :
    lookupFile (appendLineFS fs d line) d' = lookupFile fs d' := by
  unfold lookupFile appendLineFS
  split_ifs with hany
  · rw [find?_other_map_append fs h line]
  · have hfind1 : ([((d : Int), [line])].find? (fun p => p.1 == d')) = none := by
      have hdd : ((d, [line]).1 == d') = false := by
        simp
        omega
      rw [find?_cons_neg' (fun q => q.1 == d') (d, [line]) _ hdd]
      rfl
    rw [List.find?_append, hfind1]
    cases fs.find? (fun p => p.1 == d') <;> rfl

/-- C9: `mark_downloaded` on a URL with no extractable sensing time
returns `False` (without raising — the embedding is a total function) and
leaves the registry state unchanged; on a URL with sensing time `t` it
returns `True` and appends exactly one `URL|PATH` record (the given local
path, or empty) to the download file of `t`'s date, leaving the URL files
and every other download file unchanged. -/
theorem mark_downloaded_spec (st : TrackerState) (url : String) (lp : Option String) :
    (extract_sensing_time url = none →
      (mark_downloaded st url lp).1 = false ∧ (mark_downloaded st url lp).2 = st) ∧
    (∀ t, extract_sensing_time url = some t →
      (mark_downloaded st url lp).1 = true ∧
      ((mark_downloaded st url lp).2).urlFiles = st.urlFiles ∧
      (∀ d, fileLines ((mark_downloaded st url lp).2).dwlFiles d =
        fileLines st.dwlFiles d ++
          (if d = usDay t then [url ++ "|" ++ lp.getD ""] else []))) := by
  constructor
  · intro hext
    unfold mark_downloaded
    rw [hext]
    exact ⟨rfl, rfl⟩
  · intro t hext
    have hstate : (mark_downloaded st url lp).2 =
        { st with dwlFiles := appendLineFS st.dwlFiles (usDay t) (url ++ "|" ++ lp.getD "") } := by
      unfold mark_downloaded
      rw [hext]
    have hret : (mark_downloaded st url lp).1 = true := by
      unfold mark_downloaded
      rw [hext]
    refine ⟨hret, by rw [hstate], ?_⟩
    intro d
    rw [hstate]
    by_cases hd : d = usDay t
    · subst hd
      unfold fileLines
      rw [lookupFile_append_self]
      simp
    · unfold fileLines
      rw [lookupFile_append_ne _ hd]
      simp [hd]

/-- Witness instantiating `mark_downloaded_spec`: an unextractable URL
fails softly leaving the empty registry untouched; the Aeolus URL
(sensing date 2023-04-22 = day 19469) appends exactly its record. -/
theorem mark_downloaded_spec_witness :
    (mark_downloaded ⟨[], []⟩ fnameBad none).1 = false ∧
    (mark_downloaded ⟨[], []⟩ fnameBad none).2 = ⟨[], []⟩ ∧
    (mark_downloaded ⟨[], []⟩ fnameAE (some "/data/x.DBL")).1 = true ∧
    fileLines ((mark_downloaded ⟨[], []⟩ fnameAE (some "/data/x.DBL")).2).dwlFiles 19469 =
      [fnameAE ++ "|" ++ "/data/x.DBL"] := by
  have h1 := (mark_downloaded_spec ⟨[], []⟩ fnameBad none).1 (by decide)
  have h2 := (mark_downloaded_spec ⟨[], []⟩ fnameAE (some "/data/x.DBL")).2
    1682182641033000 (by decide)
  refine ⟨h1.1, h1.2, h2.1, ?_⟩
  rw [h2.2.2 19469]
  decide

/-! ## `Registry.save_urls` (C7) -/

/-- Python string comparison: lexicographic by code point. -/
def lexLe : List Char → List Char → Bool
  | [], _ => true
  | _ :: _, [] => false
  | c :: cs, d :: ds => if c < d then true else if c = d then lexLe cs ds else false

def strLeb (a b : String) : Bool := lexLe a.data b.data

def insertStr (x : String) : List String → List String
  | [] => [x]
  | y :: ys => if strLeb x y then x :: y :: ys else y :: insertStr x ys

/-- `sorted(existing_lines.keys())` (registry.py, line 356): on the
distinct keys of a dict every comparison sort computes the same sorted
permutation, modelled as insertion sort over code-point order. -/
def sortStrings (l : List String) : List String := l.foldr insertStr []

/-- `urls_by_date` of `Registry.save_urls` (registry.py, lines 303-313):
group URLs by sensing date in first-seen order, silently dropping URLs
with no extractable sensing time.  Appending a URL to its date's list is
the `appendLineFS` operation on the date-keyed grouping. -/
def groupByDate (urls : List String) : FileStore :=
  urls.foldl (fun acc u =>
    match extract_sensing_time u with
    | none => acc
    | some t => appendLineFS acc (usDay t) u) []

/-- `existing_lines[first] = f"{first}|{second}" if second else first`
(registry.py, line 339). -/
def lineOfPair (q : String × String) : String :=
  if q.2 ≠ "" then q.1 ++ "|" ++ q.2 else q.1

/-- The merge-and-rewrite branch of `save_urls` for one date
(registry.py, lines 330-361), with `data_dir` absent (each new URL's
stored line is `f"{url}|{''}"`): read existing pairs, keep the set of
existing keys and the dict url -> line, add the genuinely new URLs, and
if there are any, rewrite the file with all lines sorted by URL.
Returns (new URL count, whether the file was rewritten, new store). -/
def save_urls_merge (fs : FileStore) (d : Int) (content0 : List String)
    (dateUrls : List String) : Nat × Bool × FileStore :=
  let pairs := read_pairs content0
  let elines := pairs.foldl (fun el q => upsert el (q.1, lineOfPair q)) []
  let existingKeys := pairs.map Prod.fst
  let newUrls := dateUrls.filter (fun u => !(existingKeys.contains u))
  if newUrls.isEmpty then (0, false, fs)
  else
    let elines2 := newUrls.foldl (fun el u => upsert el (u, u ++ "|")) elines
    let allLines := (sortStrings (elines2.map Prod.fst)).map
      (fun k => (((elines2.find? (fun q => q.1 == k)).map Prod.snd).getD ""))
    (newUrls.length, true, writeFileFS fs d allLines)

/-- The date loop of `Registry.save_urls` (registry.py, lines 318-362):
for each date file, if it exists with the same record count as the new
set, only touch it (its date is recorded in `files_written`); otherwise
merge.  Returns (new URL count, dates of files touched or rewritten,
resulting store). -/
def save_urls_go (fs : FileStore) : List (Int × List String) → Nat × List Int × FileStore
  | [] => (0, [], fs)
  | (d, dateUrls) :: rest =>
    match lookupFile fs d with
    | some content =>
      if count_lines content = dateUrls.length then
        let r := save_urls_go fs rest
        (r.1, d :: r.2.1, r.2.2)
      else
        let m := save_urls_merge fs d content dateUrls
        let r := save_urls_go m.2.2 rest
        (m.1 + r.1, (if m.2.1 then [d] else []) ++ r.2.1, r.2.2)
    | none =>
      let m := save_urls_merge fs d [] dateUrls
      let r := save_urls_go m.2.2 rest
      (m.1 + r.1, (if m.2.1 then [d] else []) ++ r.2.1, r.2.2)

/-- `Registry.save_urls(urls, data_dir=None)` (registry.py, lines
285-363) over the URL file store. -/
def save_urls (fs : FileStore) (urls : List String) : Nat × List Int × FileStore :=
  save_urls_go fs (groupByDate urls)

theorem mem_insertStr {x y : String} {l : List String} :
    y ∈ insertStr x l ↔ y = x ∨ y ∈ l := by
  induction l with
  | nil => simp [insertStr]
  | cons z zs ih =>
    unfold insertStr
    split_ifs with hz
    · simp [or_comm, or_assoc, or_left_comm]
    · simp [ih]
      tauto

theorem mem_sortStrings {l : List String} {x : String} :
    x ∈ sortStrings l ↔ x ∈ l := by
  induction l with
  | nil => simp [sortStrings]
  | cons y ys ih =>
    show x ∈ insertStr y (sortStrings ys) ↔ _
    rw [mem_insertStr, ih]
    simp

theorem length_insertStr (x : String) (l : List String) :
    (insertStr x l).length = l.length + 1 := by
  induction l with
  | nil => rfl
  | cons y ys ih =>
    unfold insertStr
    split_ifs <;> simp [ih]

theorem length_sortStrings (l : List String) : (sortStrings l).length = l.length := by
  induction l with
  | nil => rfl
  | cons y ys ih =>
    show (insertStr y (sortStrings ys)).length = ys.length + 1
    rw [length_insertStr, ih]

theorem keys_appendLineFS (fs : FileStore) (d : Int) (line : String) :
    (appendLineFS fs d line).map Prod.fst =
      if fs.any (fun p => p.1 == d) then fs.map Prod.fst else fs.map Prod.fst ++ [d] := by
  unfold appendLineFS
  split_ifs with hany
  · rw [List.map_map]
    apply List.map_congr_left
    intro p _
    by_cases hp : p.1 = d <;> simp [hp]
  · simp

theorem entries_appendLineFS {fs : FileStore} {d : Int} {line : String}
    {g : Int × List String} (hg : g ∈ appendLineFS fs d line) :
    g ∈ fs ∨ (∃ g0 ∈ fs, g0.1 = d ∧ g = (g0.1, g0.2 ++ [line])) ∨ g = (d, [line]) := by
  unfold appendLineFS at hg
  split_ifs at hg with hany
  · obtain ⟨g0, hg0, hge⟩ := List.mem_map.mp hg
    by_cases hk : g0.1 = d
    · right
      left
      refine ⟨g0, hg0, hk, ?_⟩
      rw [← hge]
      simp [hk]
    · left
      have : (if g0.1 == d then (g0.1, g0.2 ++ [line]) else g0) = g0 := by simp [hk]
      rw [← hge, this]
      exact hg0
  · rcases List.mem_append.mp hg with h | h
    · exact Or.inl h
    · right
      right
      simpa using h

theorem groupByDate_go_facts (urls : List String) :
    ∀ (acc : FileStore),
      (acc.map Prod.fst).Nodup →
      (∀ g ∈ acc, g.2 ≠ [] ∧ g.2.Nodup) →
      (∀ g ∈ acc, ∀ u ∈ g.2, u ∉ urls) →
      urls.Nodup →
      ((urls.foldl (fun acc u =>
          match extract_sensing_time u with
          | none => acc
          | some t => appendLineFS acc (usDay t) u) acc).map Prod.fst).Nodup ∧
      ∀ g ∈ urls.foldl (fun acc u =>
          match extract_sensing_time u with
          | none => acc
          | some t => appendLineFS acc (usDay t) u) acc,
        g.2 ≠ [] ∧ g.2.Nodup ∧ ∀ u ∈ g.2, (∃ g0 ∈ acc, u ∈ g0.2) ∨ u ∈ urls := by
  induction urls with
  | nil =>
    intro acc h1 h2 _ _
    refine ⟨h1, ?_⟩
    intro g hg
    exact ⟨(h2 g hg).1, (h2 g hg).2, fun u hu => Or.inl ⟨g, hg, hu⟩⟩
  | cons v rest ih =>
    intro acc h1 h2 hfresh hnd
    simp only [List.foldl_cons]
    have hndr := (List.nodup_cons.mp hnd).2
    have hvnr : v ∉ rest := (List.nodup_cons.mp hnd).1
    cases hext : extract_sensing_time v with
    | none =>
      have hres := ih acc h1 h2
        (fun g hg u hu hmem => hfresh g hg u hu (by simp [hmem])) hndr
      refine ⟨hres.1, ?_⟩
      intro g hg
      obtain ⟨hne, hnd', hmem⟩ := hres.2 g hg
      refine ⟨hne, hnd', fun u hu => ?_⟩
      rcases hmem u hu with h | h
      · exact Or.inl h
      · exact Or.inr (by simp [h])
    | some t =>
      have h1' : ((appendLineFS acc (usDay t) v).map Prod.fst).Nodup := by
        rw [keys_appendLineFS]
        split_ifs with hany
        · exact h1
        · rw [List.nodup_append]
          refine ⟨h1, by simp, ?_⟩
          intro x hx
          simp only [List.mem_singleton]
          intro hxe
          obtain ⟨p, hp, hpe⟩ := List.mem_map.mp hx
          have hf : acc.any (fun p => p.1 == usDay t) = false := by
            rw [← Bool.not_eq_true]
            exact hany
          have hpf := List.any_eq_false.mp hf p hp
          rw [hpe, hxe] at hpf
          simp at hpf
      have h2' : ∀ g ∈ appendLineFS acc (usDay t) v, g.2 ≠ [] ∧ g.2.Nodup := by
        intro g hg
        rcases entries_appendLineFS hg with hold | ⟨g0, hg0, -, rfl⟩ | rfl
        · exact h2 g hold
        · refine ⟨by simp, ?_⟩
          rw [List.nodup_append]
          refine ⟨(h2 g0 hg0).2, by simp, ?_⟩
          intro x hx
          simp only [List.mem_singleton]
          rintro rfl
          exact hfresh g0 hg0 x hx (by simp)
        · exact ⟨by simp, by simp⟩
      have hfresh' : ∀ g ∈ appendLineFS acc (usDay t) v, ∀ u ∈ g.2, u ∉ rest := by
        intro g hg u hu
        rcases entries_appendLineFS hg with hold | ⟨g0, hg0, -, rfl⟩ | rfl
        · exact fun hmem => hfresh g hold u hu (by simp [hmem])
        · rcases List.mem_append.mp hu with h | h
          · exact fun hmem => hfresh g0 hg0 u h (by simp [hmem])
          · simp only [List.mem_singleton] at h
            subst h
            exact hvnr
        · simp only [List.mem_singleton] at hu
          subst hu
          exact hvnr
      have hres := ih (appendLineFS acc (usDay t) v) h1' h2' hfresh' hndr
      refine ⟨hres.1, ?_⟩
      intro g hg
      obtain ⟨hne, hnd', hmem⟩ := hres.2 g hg
      refine ⟨hne, hnd', fun u hu => ?_⟩
      rcases hmem u hu with ⟨g0, hg0, hug0⟩ | h
      · rcases entries_appendLineFS hg0 with hold | ⟨g1, hg1, -, rfl⟩ | rfl
        · exact Or.inl ⟨g0, hold, hug0⟩
        · rcases List.mem_append.mp hug0 with h | h
          · exact Or.inl ⟨g1, hg1, h⟩
          · simp only [List.mem_singleton] at h
            exact Or.inr (by simp [h])
        · simp only [List.mem_singleton] at hug0
          exact Or.inr (by simp [hug0])
      · exact Or.inr (by simp [h])

theorem groupByDate_facts (urls : List String) (hnd : urls.Nodup) :
    ((groupByDate urls).map Prod.fst).Nodup ∧
    ∀ g ∈ groupByDate urls, g.2 ≠ [] ∧ g.2.Nodup ∧ ∀ u ∈ g.2, u ∈ urls := by
  have h := groupByDate_go_facts urls [] (by simp) (by simp) (by simp) hnd
  refine ⟨h.1, ?_⟩
  intro g hg
  obtain ⟨a, b, c⟩ := h.2 g hg
  refine ⟨a, b, fun u hu => ?_⟩
  rcases c u hu with ⟨g0, hg0, -⟩ | h'
  · exact absurd hg0 (List.not_mem_nil g0)
  · exact h'

theorem find?_eq_none_of_lookup_none {fs : FileStore} {d : Int}
    (h : lookupFile fs d = none) : fs.find? (fun p => p.1 == d) = none := by
  unfold lookupFile at h
  cases hfind : fs.find? (fun p => p.1 == d) with
  | none => rfl
  | some q =>
    rw [hfind] at h
    cases h

theorem any_eq_false_of_lookup_none {fs : FileStore} {d : Int}
    (h : lookupFile fs d = none) : fs.any (fun p => p.1 == d) = false := by
  rw [List.any_eq_false]
  intro p hp
  exact List.find?_eq_none.mp (find?_eq_none_of_lookup_none h) p hp

theorem writeFileFS_absent {fs : FileStore} {d : Int} (lines : List String)
    (h : lookupFile fs d = none) : writeFileFS fs d lines = fs ++ [(d, lines)] := by
  unfold writeFileFS
  rw [any_eq_false_of_lookup_none h]
  simp

theorem lookupFile_concat_ne {fs : FileStore} {d : Int} (lines : List String) {d' : Int}
    (h : d' ≠ d) : lookupFile (fs ++ [(d, lines)]) d' = lookupFile fs d' := by
  unfold lookupFile
  rw [List.find?_append]
  have hfind1 : ([((d : Int), lines)].find? (fun p => p.1 == d')) = none := by
    have hdd : ((d, lines).1 == d') = false := by
      simp
      omega
    rw [find?_cons_neg' (fun q => q.1 == d') (d, lines) _ hdd]
    rfl
  rw [hfind1]
  cases fs.find? (fun p => p.1 == d') <;> rfl

theorem foldl_upsert_fresh (us : List String) :
    ∀ acc : List (String × String), us.Nodup → (∀ u ∈ us, ∀ p ∈ acc, p.1 ≠ u) →
      us.foldl (fun el u => upsert el (u, u ++ "|")) acc =
        acc ++ us.map (fun u => (u, u ++ "|")) := by
  induction us with
  | nil =>
    intro acc _ _
    simp
  | cons u rest ih =>
    intro acc hnd hfresh
    rw [List.foldl_cons]
    have hany : acc.any (fun p => p.1 == u) = false := by
      rw [List.any_eq_false]
      intro p hp
      simpa using hfresh u (by simp) p hp
    have hup : upsert acc (u, u ++ "|") = acc ++ [(u, u ++ "|")] := by
      unfold upsert
      rw [hany]
      simp
    rw [hup, ih (acc ++ [(u, u ++ "|")]) (List.nodup_cons.mp hnd).2 ?hfr]
    · simp
    case hfr =>
      intro v hv p hp
      rcases List.mem_append.mp hp with h | h
      · exact hfresh v (by simp [hv]) p h
      · simp only [List.mem_singleton] at h
        subst h
        intro he
        have huv : u = v := he
        rw [← huv] at hv
        exact (List.nodup_cons.mp hnd).1 hv

theorem find?_pairing {us : List String} {k : String} (hk : k ∈ us) :
    ∃ q, (us.map (fun u => (u, u ++ "|"))).find? (fun q => q.1 == k) = some q ∧
      q.2 = k ++ "|" := by
  induction us with
  | nil => cases hk
  | cons u rest ih =>
    by_cases hu : (u == k) = true
    · refine ⟨(u, u ++ "|"), ?_, ?_⟩
      · rw [List.map_cons]
        exact find?_cons_pos' (fun q => q.1 == k) (u, u ++ "|") _ hu
      · have : u = k := by simpa using hu
        rw [this]
    · have hk' : k ∈ rest := by
        rcases List.mem_cons.mp hk with rfl | h
        · simp at hu
        · exact h
      obtain ⟨q, hq1, hq2⟩ := ih hk'
      refine ⟨q, ?_, hq2⟩
      rw [List.map_cons,
        find?_cons_neg' (fun q => q.1 == k) (u, u ++ "|") _ (by simpa using hu), hq1]

theorem save_urls_merge_empty (fs : FileStore) (d : Int) (us : List String)
    (hne : us ≠ []) (hnd : us.Nodup) :
    save_urls_merge fs d [] us =
      (us.length, true, writeFileFS fs d ((sortStrings us).map (fun k => k ++ "|"))) := by
  unfold save_urls_merge
  dsimp only
  have hfilter : us.filter (fun u => !((read_pairs []).map Prod.fst).contains u) = us := by
    apply List.filter_eq_self.mpr
    intro u _
    rfl
  rw [hfilter]
  rw [if_neg (by simpa using hne)]
  have helines2 : us.foldl (fun el u => upsert el (u, u ++ "|"))
      ((read_pairs []).foldl (fun el q => upsert el (q.1, lineOfPair q)) []) =
      us.map (fun u => (u, u ++ "|")) := by
    have h0 : ((read_pairs []).foldl (fun el q => upsert el (q.1, lineOfPair q)) []) =
        ([] : List (String × String)) := rfl
    rw [h0, foldl_upsert_fresh us [] hnd (by intro u _ p hp; cases hp)]
    simp
  rw [helines2]
  have hkeys : (us.map (fun u => (u, u ++ "|"))).map Prod.fst = us := by
    rw [List.map_map]
    exact List.map_id us
  rw [hkeys]
  have hlines : (sortStrings us).map (fun k =>
      ((((us.map (fun u => (u, u ++ "|"))).find? (fun q => q.1 == k)).map Prod.snd).getD "")) =
      (sortStrings us).map (fun k => k ++ "|") := by
    apply List.map_congr_left
    intro k hk
    obtain ⟨q, hq1, hq2⟩ := find?_pairing (mem_sortStrings.mp hk)
    rw [hq1]
    simpa using hq2
  rw [hlines]

theorem save_urls_go_fresh (groups : List (Int × List String)) :
    ∀ fs : FileStore,
      (∀ g ∈ groups, lookupFile fs g.1 = none) →
      (groups.map Prod.fst).Nodup →
      (∀ g ∈ groups, g.2 ≠ [] ∧ g.2.Nodup) →
      (save_urls_go fs groups).2.2 =
        fs ++ groups.map (fun g => (g.1, (sortStrings g.2).map (fun k => k ++ "|"))) := by
  induction groups with
  | nil =>
    intro fs _ _ _
    simp [save_urls_go]
  | cons g rest ih =>
    intro fs hlook hnd hgood
    obtain ⟨d, us⟩ := g
    have hl : lookupFile fs d = none := hlook (d, us) (by simp)
    show (save_urls_go fs ((d, us) :: rest)).2.2 = _
    unfold save_urls_go
    rw [hl]
    rw [save_urls_merge_empty fs d us (hgood (d, us) (by simp)).1 (hgood (d, us) (by simp)).2]
    rw [writeFileFS_absent _ hl]
    have hnd2 : ((d, us).1 :: rest.map Prod.fst).Nodup := by
      rw [← List.map_cons]
      exact hnd
    have hkey : d ∉ rest.map Prod.fst := (List.nodup_cons.mp hnd2).1
    rw [ih (fs ++ [(d, (sortStrings us).map (fun k => k ++ "|"))]) ?hlk
      (List.nodup_cons.mp hnd2).2 (fun g' hg' => hgood g' (by simp [hg']))]
    · simp
    case hlk =>
      intro g' hg'
      have hne : g'.1 ≠ d := by
        intro he
        exact hkey (he ▸ List.mem_map.mpr ⟨g', hg', rfl⟩)
      rw [lookupFile_concat_ne _ hne]
      exact hlook g' (by simp [hg'])

theorem save_urls_go_touch (groups : List (Int × List String)) :
    ∀ fs : FileStore,
      (∀ g ∈ groups, ∃ content, lookupFile fs g.1 = some content ∧
        count_lines content = g.2.length) →
      save_urls_go fs groups = (0, groups.map Prod.fst, fs) := by
  induction groups with
  | nil =>
    intro fs _
    rfl
  | cons g rest ih =>
    intro fs h
    obtain ⟨d, us⟩ := g
    obtain ⟨content, hc1, hc2⟩ := h (d, us) (by simp)
    have hc1' : lookupFile fs d = some content := hc1
    have hc2' : count_lines content = us.length := hc2
    show save_urls_go fs ((d, us) :: rest) = _
    unfold save_urls_go
    rw [hc1']
    dsimp only
    rw [if_pos hc2']
    rw [ih fs (fun g' hg' => h g' (by simp [hg']))]
    rfl

theorem lookupFile_map_of_nodup (f : (Int × List String) → List String)
    {groups : List (Int × List String)} (hnd : (groups.map Prod.fst).Nodup)
    {d : Int} {us : List String} (hmem : (d, us) ∈ groups) :
    lookupFile (groups.map (fun g => (g.1, f g))) d = some (f (d, us)) := by
  induction groups with
  | nil => cases hmem
  | cons g rest ih =>
    rcases List.mem_cons.mp hmem with he | hmem'
    · unfold lookupFile
      rw [List.map_cons,
        find?_cons_pos' (fun q => q.1 == d) (g.1, f g) _ (by rw [← he]; simp)]
      rw [← he]
      rfl
    · have hnd2 : (g.1 :: rest.map Prod.fst).Nodup := by
        rw [← List.map_cons]
        exact hnd
      have hne : (g.1 == d) = false := by
        have h1 := (List.nodup_cons.mp hnd2).1
        have : d ∈ rest.map Prod.fst := List.mem_map.mpr ⟨(d, us), hmem', rfl⟩
        simp only [beq_eq_false_iff_ne, ne_eq]
        intro he
        exact h1 (he ▸ this)
      unfold lookupFile
      rw [List.map_cons, find?_cons_neg' (fun q => q.1 == d) (g.1, f g) _ hne]
      exact ih (List.nodup_cons.mp hnd2).2 hmem'

theorem count_lines_sorted_bars {us : List String}
    (hwf : ∀ u ∈ us, wellFormedUrl u = true) :
    count_lines ((sortStrings us).map (fun k => k ++ "|")) = us.length := by
  unfold count_lines
  rw [List.countP_map]
  have : ∀ k ∈ sortStrings us, (countedLine ∘ fun k => k ++ "|") k = true := by
    intro k hk
    have hwfk := hwf k (mem_sortStrings.mp hk)
    have hp : parse_line (k ++ "|") = some (k, "") := by
      have := parse_line_mark hwfk
      simpa using this
    show countedLine (k ++ "|") = true
    rw [← parse_line_isSome, hp]
    rfl
  rw [List.countP_eq_length.mpr this, length_sortStrings]

/-- C7: starting from an empty URL registry, a first `save_urls(urls)`
writes each sensing date's file; a second `save_urls` with the same
unchanged URL list reports 0 new URLs, leaves every file's content
untouched, and lists exactly the original date files as touched — it took
the count-match branch for each date, which only refreshes the file's
modification time (the rewrite branch is excluded because it would have
reported its URLs as new).  Hypotheses: the URLs are pairwise distinct
and are well-formed record keys. -/
theorem save_urls_idempotent (urls : List String) (hnd : urls.Nodup)
    (hwf : ∀ u ∈ urls, wellFormedUrl u = true) :
    (save_urls (save_urls [] urls).2.2 urls).1 = 0 ∧
    (save_urls (save_urls [] urls).2.2 urls).2.2 = (save_urls [] urls).2.2 ∧
    (save_urls (save_urls [] urls).2.2 urls).2.1 = (groupByDate urls).map Prod.fst := by
  obtain ⟨hknd, hgood⟩ := groupByDate_facts urls hnd
  have hst1 : (save_urls [] urls).2.2 =
      (groupByDate urls).map (fun g => (g.1, (sortStrings g.2).map (fun k => k ++ "|"))) := by
    show (save_urls_go [] (groupByDate urls)).2.2 = _
    rw [save_urls_go_fresh (groupByDate urls) [] (fun g _ => rfl) hknd
      (fun g hg => ⟨(hgood g hg).1, (hgood g hg).2.1⟩)]
    simp
  have hcnt : ∀ g ∈ groupByDate urls, ∃ content,
      lookupFile (save_urls [] urls).2.2 g.1 = some content ∧
        count_lines content = g.2.length := by
    intro g hg
    obtain ⟨d, us⟩ := g
    refine ⟨(sortStrings us).map (fun k => k ++ "|"), ?_, ?_⟩
    · rw [hst1]
      exact lookupFile_map_of_nodup _ hknd hg
    · exact count_lines_sorted_bars
        (fun u hu => hwf u ((hgood (d, us) hg).2.2 u hu))
  have hsecond : save_urls (save_urls [] urls).2.2 urls =
      (0, (groupByDate urls).map Prod.fst, (save_urls [] urls).2.2) := by
    show save_urls_go (save_urls [] urls).2.2 (groupByDate urls) = _
    exact save_urls_go_touch (groupByDate urls) _ hcnt
  rw [hsecond]
  exact ⟨rfl, rfl, rfl⟩

/-- Witness instantiating `save_urls_idempotent` on two distinct
well-formed product URLs. -/
theorem save_urls_idempotent_witness :
    [fnameECA, fnameAE].Nodup ∧
    (∀ u ∈ [fnameECA, fnameAE], wellFormedUrl u = true) ∧
    (save_urls (save_urls [] [fnameECA, fnameAE]).2.2 [fnameECA, fnameAE]).1 = 0 ∧
    (save_urls (save_urls [] [fnameECA, fnameAE]).2.2 [fnameECA, fnameAE]).2.2 =
      (save_urls [] [fnameECA, fnameAE]).2.2 := by
  have h := save_urls_idempotent [fnameECA, fnameAE] (by decide) (by decide)
  exact ⟨by decide, by decide, h.1, h.2.1⟩

end Maap
